import Mathlib

/-!
# Sibelia: stage files, the input cap, k-mer validity and the iterator registry

A shallow embedding of `src/main.cpp` and `src/dnasequence.h`.

* `ReadStageFile`, `LooseStageFile`, `FineStageFile` and `main` follow `main.cpp`.
* `ProperKMer`, `IteratorPtrHash` and `IteratorPtrCompare` follow the inline code of
  `dnasequence.h`.
* The members of `DNASequence` that `dnasequence.h` only declares are modelled from the
  specification; each such definition says so in its doc comment.
-/

set_option autoImplicit false

namespace SyntenyFinder

/-! ## `main.cpp`: stage files -/

/-- Largest value of the C++ type `int` (32 bits). -/
def INT_MAX : Int := 2147483647

/-- Smallest value of the C++ type `int` (32 bits). -/
def INT_MIN : Int := -2147483648

/-- Formatted extraction `stageFile >> x` into an `int`. The stream is the list of the
integer tokens still unread. Extraction fails (the stream goes into its fail state and
the `!(...)` test is true) when no token is left or when the token does not fit an
`int`; otherwise it yields the value and the rest of the stream. -/
def extractInt : List Int → Option (Int × List Int)
  | [] => none
  | t :: rest => if INT_MIN ≤ t ∧ t ≤ INT_MAX then some (t, rest) else none

/-- The `for(int i = 0; i < count; i++)` loop of `ReadStageFile`. The first argument is
`count - i`, the number of iterations still to run; `ret` is the vector being filled. -/
def stageLoop : Nat → Nat → List (Int × Int) → List Int → Except String (List (Int × Int))
  | 0, _, ret, _ => Except.ok ret
  | r + 1, i, ret, s =>
    match extractInt s with
    | none => Except.error "too few records in the stage file"
    | some (first, s1) =>
      match extractInt s1 with
      | none => Except.error "too few records in the stage file"
      | some (second, s2) =>
        if first < 2 then
          Except.error "vertex size in stage record must be at least 2"
        else if second < 0 then
          Except.error "minimum branch size in stage record must be nonnegative"
        else
          stageLoop r (i + 1) (ret.set i (first, second)) s2

/-- The function `ReadStageFile` of `main.cpp`. The argument is `none` when the file
cannot be opened and otherwise the integer tokens of the file. A thrown
`std::runtime_error` is `Except.error` with its message. -/
def ReadStageFile (stageFile : Option (List Int)) : Except String (List (Int × Int)) :=
  match stageFile with
  | none => Except.error "cannot open stage file"
  | some s =>
    match extractInt s with
    | none => Except.error "cannot read stage file"
    | some (count, s1) =>
      if count < 0 then
        Except.error "number of stages must be nonnegative"
      else
        stageLoop count.toNat 0 (List.replicate count.toNat (0, 0)) s1

/-- The function `LooseStageFile` of `main.cpp`. -/
def LooseStageFile : List (Int × Int) :=
  [(30, 150), (100, 1000), (1000, 5000), (5000, 15000)]

/-- The function `FineStageFile` of `main.cpp`. -/
def FineStageFile : List (Int × Int) :=
  [(30, 150), (100, 1000), (1000, 2500)]

/-- The map `defaultParameters` of `main`, read with `operator[]`: a key that is not in
the map yields an empty vector. -/
def defaultParameters (name : String) : List (Int × Int) :=
  if name = "loose" then LooseStageFile
  else if name = "fine" then FineStageFile
  else []

/-- The tokens of a stage file that spell the pairs `ps` one after the other. -/
def pairTokens : List (Int × Int) → List Int
  | [] => []
  | (k, d) :: ps => k :: d :: pairTokens ps

/-! ## `main.cpp`: the input cap and the run of `main` -/

/-- A FASTA record, as far as `main` looks at it: `GetSequence()` is `sequence`. -/
structure FASTARecord where
  description : String
  sequence : List Char
deriving DecidableEq, Repr

/-- Number of values of `size_t` (64 bits). -/
def SIZE_T_RANGE : Nat := 2 ^ 64

/-- The loop `totalSize += chrList[i].GetSequence().size()` of `main`, in `size_t`
arithmetic, started from the value `totalSize`. -/
def sumSizes (totalSize : Nat) : List FASTARecord → Nat
  | [] => totalSize
  | r :: rest => sumSizes ((totalSize + r.sequence.length) % SIZE_T_RANGE) rest

/-- The loop over `fileName` of `main`: every file is either unreadable (`none`, and
`reader.IsOk()` is false) or gives its records, which are appended to `chrList`. -/
def readFiles : List (String × Option (List FASTARecord)) → List FASTARecord →
    Except String (List FASTARecord)
  | [], chrList => Except.ok chrList
  | (name, none) :: _, _ => Except.error ("Cannot open file " ++ name)
  | (_, some recs) :: rest, chrList => readFiles rest (chrList ++ recs)

/-- The conversion `static_cast<int>(x)` of an `unsigned int` value: the value is kept
when it fits an `int` and wraps around by `2 ^ 32` otherwise. -/
def castToInt (x : Nat) : Int :=
  if (x % 2 ^ 32 : Nat) ≤ 2147483647 then ((x % 2 ^ 32 : Nat) : Int)
  else ((x % 2 ^ 32 : Nat) : Int) - 2 ^ 32

/-- The conversion of an `int` to `size_t`: the value modulo `2 ^ 64`. -/
def castToSizeT (x : Int) : Nat :=
  (x % 2 ^ 64).toNat

/-- What `main` does to the block finder, in program order. -/
inductive Action where
  | constructBlockFinder (chrList : List FASTARecord) (inRAM : Bool)
  | PerformGraphSimplifications (k d : Int) (maxIterations : Nat)
  | GenerateSyntenyBlocks (lastK : Nat) (minBlockSize : Nat)
deriving DecidableEq, Repr

/-- How the `try` block of `main` ends. -/
inductive Ending where
  | completed
  | runtimeError (what : String)
  | backOfEmptyVector
deriving DecidableEq, Repr

/-- The observable run of `main`: the actions on the block finder and the ending. -/
structure Run where
  actions : List Action
  ending : Ending
deriving DecidableEq, Repr

/-- The parsed command line of `main`. `parameters` is set when `-s` was given,
otherwise `-k` was given and `stageFile` is the content of the named file.
`maxIterations` and `minBlockSize` are values of the type `unsigned int`. -/
structure CmdLine where
  parameters : Option String
  stageFile : Option (List Int)
  fileName : List (String × Option (List FASTARecord))
  inRAM : Bool
  maxIterations : Nat
  minBlockSize : Nat

/-- The stage selection of `main` (lines 225 to 233). -/
def selectStage (cmd : CmdLine) : Except String (List (Int × Int)) :=
  match cmd.parameters with
  | some name => Except.ok (defaultParameters name)
  | none => ReadStageFile cmd.stageFile

/-- The `try` block of `main` from the stage selection to `GenerateSyntenyBlocks`.
`MAX_INPUT_SIZE` is the constant of that name, whose declaration is not in
`main.cpp`. Reading `stage.back()` of an empty vector has no defined behaviour; the
run then ends with `Ending.backOfEmptyVector`. `lastK` is the minimum of two `int`
values, the second being `minBlockSize` cast to `int`, stored in a `size_t`. -/
def main (MAX_INPUT_SIZE : Nat) (cmd : CmdLine) : Run :=
  match selectStage cmd with
  | Except.error e => ⟨[], Ending.runtimeError e⟩
  | Except.ok stage =>
    match readFiles cmd.fileName [] with
    | Except.error e => ⟨[], Ending.runtimeError e⟩
    | Except.ok chrList =>
      let totalSize := sumSizes 0 chrList
      if totalSize > MAX_INPUT_SIZE then
        ⟨[], Ending.runtimeError "Input is larger than 1 GB, can't proceed"⟩
      else
        let simplifications :=
          stage.map (fun st => Action.PerformGraphSimplifications st.1 st.2 cmd.maxIterations)
        let done := Action.constructBlockFinder chrList cmd.inRAM :: simplifications
        match stage.getLast? with
        | none => ⟨done, Ending.backOfEmptyVector⟩
        | some last =>
          let lastK := castToSizeT (min last.1 (castToInt cmd.minBlockSize))
          ⟨done ++ [Action.GenerateSyntenyBlocks lastK cmd.minBlockSize], Ending.completed⟩

/-- The sum of the sequence lengths of the records, as a natural number. -/
def totalLength (chrList : List FASTARecord) : Nat :=
  (chrList.map (fun r => r.sequence.length)).sum

/-- Whether an action constructs the block finder. -/
def Action.isConstruct : Action → Bool
  | Action.constructBlockFinder _ _ => true
  | _ => false

/-- Whether an action is a simplification stage. -/
def Action.isSimplification : Action → Bool
  | Action.PerformGraphSimplifications _ _ _ => true
  | _ => false

/-! ## `dnasequence.h`: the inline code -/

/-- The outcome of running the loop of `ProperKMer`: the value returned, the final
value of the function's own cursor `it`, and the cursor values at which `++it` was
executed, in order. -/
structure KMerRun (It : Type) where
  result : Bool
  it : It
  advancedFrom : List It

/-- The loop `for(size_t i = 0; i < k; i++, ++it)` of `ProperKMer`. The first explicit
argument is `k - i`, the number of iterations still to run. `AtValidPosition` and
`advance` (the prefix `operator ++`) are the members of `StrandIterator` the loop
calls; their bodies are not in `dnasequence.h`. -/
def ProperKMerLoop {It : Type} (AtValidPosition : It → Bool) (advance : It → It) :
    Nat → It → List It → KMerRun It
  | 0, it, log => ⟨true, it, log⟩
  | r + 1, it, log =>
    if !AtValidPosition it then ⟨false, it, log⟩
    else ProperKMerLoop AtValidPosition advance r (advance it) (log ++ [it])

/-- The run of `ProperKMer(it, k)`: the parameter `it` is the function's own copy of
the argument. -/
def ProperKMerRun {It : Type} (AtValidPosition : It → Bool) (advance : It → It)
    (it : It) (k : Nat) : KMerRun It :=
  ProperKMerLoop AtValidPosition advance k it []

/-- The function `ProperKMer` of `dnasequence.h`. -/
def ProperKMer {It : Type} (AtValidPosition : It → Bool) (advance : It → It)
    (it : It) (k : Nat) : Bool :=
  (ProperKMerRun AtValidPosition advance it k).result

/-- A call `ProperKMer(x, k)` seen from the caller that holds the iterator `x`. The
parameter is passed by value, through the copy constructor that takes its source by
`const` reference, so the loop works on a copy. The result pairs the value returned
with the caller's iterator after the call. -/
def callProperKMer {It : Type} (AtValidPosition : It → Bool) (advance : It → It)
    (x : It) (k : Nat) : Bool × It :=
  let copy := x
  (ProperKMer AtValidPosition advance copy k, x)

/-! ## `dnasequence.h`: the data model -/

/-- The enumeration `DNASequence::Direction`. -/
inductive Direction where
  | positive
  | negative
deriving DecidableEq, Repr

/-- Modelled from the spec: the values of the field `actual`, whose constants
(`UNKNOWN_BASE`, `SEPARATION_CHAR`, `DELETED_CHAR`) are declared in `dnasequence.h`
without their values. A letter is one of `A`, `C`, `G`, `T`, the unknown-base
sentinel, the separator sentinel, or the deleted-slot sentinel. -/
inductive Letter where
  | A
  | C
  | G
  | T
  | UNKNOWN_BASE
  | SEPARATION_CHAR
  | DELETED_CHAR
deriving DecidableEq, Repr

/-- Modelled from the spec: the type `Pos`, whose declaration is not in
`dnasequence.h`. An original position is a natural number or the deleted-position
sentinel, here `none`. -/
abbrev Pos := Option Nat

/-- Modelled from the spec: the constant `DELETED_POS`, the deleted-position
sentinel. -/
def DELETED_POS : Pos := none

/-- The structure `DNASequence::DNACharacter`. -/
structure DNACharacter where
  actual : Letter
  pos : Pos
deriving DecidableEq, Repr

/-- Modelled from the spec: a cell of the chunked buffer `unrolled_list`, whose header
is not part of the sources. A cell has a stable identity `id` (its address) and holds
a `DNACharacter`. A tombstoned cell keeps its slot and its identity. -/
structure Cell where
  id : Nat
  value : DNACharacter
deriving DecidableEq, Repr

/-- Modelled from the spec: the cursor type `Sequence::iterator`. A cursor references
the cell with the given identity, or is the one-past sentinel `end()`, here `none`. -/
abbrev SequencePosIterator := Option Nat

/-- The classes `ForwardIterator` and `BackwardIterator` that derive from
`GenericIterator`; each holds the base cursor `it_`. -/
inductive GenericIterator where
  | ForwardIterator (it_ : SequencePosIterator)
  | BackwardIterator (it_ : SequencePosIterator)
deriving DecidableEq, Repr

/-- The class `DNASequence::StrandIterator`, which owns a `GenericIterator`. -/
structure StrandIterator where
  it_ : GenericIterator
deriving DecidableEq, Repr

/-- The state of a `DNASequence`. `sequence_` lists the cells of the buffer in link
order, tombstones included. `iteratorStore_` is the multiset of subscribed handles; a
handle is the address of a cursor owned by a caller, and `cursors` is the memory that
holds these cursors, indexed by handle. `nextId` is the identity the next new cell
gets. -/
structure DNASequence where
  sequence_ : List Cell
  posBegin_ : List SequencePosIterator
  posEnd_ : List SequencePosIterator
  iteratorStore_ : List Nat
  cursors : List SequencePosIterator
  nextId : Nat
deriving DecidableEq, Repr

/-! ## `dnasequence.h`: the iterator registry -/

/-- The functor `IteratorPtrCompare`: `(*it) == (*jt)`, the equality of the two cursors
the handles point to. `cursorAt` reads the cursor a handle points to. -/
def IteratorPtrCompare (cursorAt : Nat → SequencePosIterator) (it jt : Nat) : Bool :=
  cursorAt it == cursorAt jt

/-- The functor `IteratorPtrHash`: `reinterpret_cast<size_t>(&(**it))`, the address of
the cell the cursor references. `address` gives the address of the cell with a given
identity; the cursor `end()` references no cell, and the value is then `none`. -/
def IteratorPtrHash (address : Nat → Nat) (cursorAt : Nat → SequencePosIterator)
    (it : Nat) : Option Nat :=
  (cursorAt it).map address

/-- The cursor a handle points to in the state `st`; a handle that is not in use reads
as `end()`. -/
def DNASequence.cursorAt (st : DNASequence) (h : Nat) : SequencePosIterator :=
  (st.cursors.get? h).join

/-! ## `DNASequence`, modelled from the specification -/

/-- Modelled from the spec: the static function `DNASequence::Translate`, the
Watson-Crick complement `A <-> T`, `C <-> G`, unknown to unknown. The spec does not
say what it does to the two other sentinels; they are left as they are. -/
def Translate : Letter → Letter
  | Letter.A => Letter.T
  | Letter.T => Letter.A
  | Letter.C => Letter.G
  | Letter.G => Letter.C
  | x => x

/-- Modelled from the spec: the coercion of an input letter at construction. `A`, `C`,
`G` and `T` are kept, all other input letters become the unknown-base sentinel. -/
def coerce (ch : Char) : Letter :=
  if ch = 'A' then Letter.A
  else if ch = 'C' then Letter.C
  else if ch = 'G' then Letter.G
  else if ch = 'T' then Letter.T
  else Letter.UNKNOWN_BASE

/-- A cell is live when it is not a tombstone. -/
def Cell.live (c : Cell) : Bool :=
  c.value.actual != Letter.DELETED_CHAR

/-- A cell is a separator when its letter is the separator sentinel. -/
def Cell.separator (c : Cell) : Bool :=
  c.value.actual == Letter.SEPARATION_CHAR

/-- A cell is valid when it is live and not a separator. -/
def Cell.valid (c : Cell) : Bool :=
  c.live && !c.separator

/-- The cell with the identity `id`, if the list has one. -/
def cellOf (l : List Cell) (id : Nat) : Option Cell :=
  l.find? (fun c => c.id == id)

/-- The cells that follow the cell with the identity `id`. -/
def cellsAfter : List Cell → Nat → List Cell
  | [], _ => []
  | c :: l, id => if c.id = id then l else cellsAfter l id

/-- The cells that precede the cell with the identity `id`. -/
def cellsBefore : List Cell → Nat → List Cell
  | [], _ => []
  | c :: l, id => if c.id = id then [] else c :: cellsBefore l id

/-- The cursor at the first live cell of a list, `end()` if it has none. -/
def firstLive (l : List Cell) : SequencePosIterator :=
  (l.find? Cell.live).map Cell.id

/-- Modelled from the spec: advancing a cursor of the buffer. It skips tombstoned
slots and reaches `end()` after the last live cell. Advancing `end()` is undefined in
the spec; the model leaves the cursor at `end()`. -/
def forward (l : List Cell) : SequencePosIterator → SequencePosIterator
  | none => none
  | some id => firstLive (cellsAfter l id)

/-- Modelled from the spec: moving a cursor of the buffer backward. It skips tombstoned
slots; from `end()` it reaches the last live cell. Moving backward from the first live
cell is undefined in the spec; the model yields the sentinel `end()`. -/
def backward (l : List Cell) : SequencePosIterator → SequencePosIterator
  | none => firstLive l.reverse
  | some id => firstLive (cellsAfter l.reverse id)

namespace GenericIterator

/-- The member `Base()`: the underlying cursor. -/
def Base : GenericIterator → SequencePosIterator
  | ForwardIterator it_ => it_
  | BackwardIterator it_ => it_

/-- The member `GetDirection()`. -/
def GetDirection : GenericIterator → Direction
  | ForwardIterator _ => Direction.positive
  | BackwardIterator _ => Direction.negative

/-- Modelled from the spec: the member `Invert()`, an iterator of the opposite
direction at the same cell. -/
def Invert : GenericIterator → GenericIterator
  | ForwardIterator it_ => BackwardIterator it_
  | BackwardIterator it_ => ForwardIterator it_

/-- Modelled from the spec: the member `TranslateChar`. A positive iterator yields the
letter as stored, a negative one its complement. -/
def TranslateChar : GenericIterator → Letter → Letter
  | ForwardIterator _, ch => ch
  | BackwardIterator _, ch => Translate ch

/-- Modelled from the spec: the member `Equal`. Two iterators are equal when they
refer to the same cell with the same direction. -/
def Equal (a b : GenericIterator) : Bool :=
  a.GetDirection == b.GetDirection && a.Base == b.Base

/-- Modelled from the spec: the member `MoveForward`. Positive forward is buffer
forward, negative forward is buffer backward. -/
def MoveForward (l : List Cell) : GenericIterator → GenericIterator
  | ForwardIterator it_ => ForwardIterator (forward l it_)
  | BackwardIterator it_ => BackwardIterator (backward l it_)

/-- Modelled from the spec: the member `MoveBackward`, the reverse of
`MoveForward`. -/
def MoveBackward (l : List Cell) : GenericIterator → GenericIterator
  | ForwardIterator it_ => ForwardIterator (backward l it_)
  | BackwardIterator it_ => BackwardIterator (forward l it_)

end GenericIterator

namespace StrandIterator

/-- The constructor `StrandIterator(SequencePosIterator base, Direction direction)`. -/
def ofBase (base : SequencePosIterator) : Direction → StrandIterator
  | Direction.positive => ⟨GenericIterator.ForwardIterator base⟩
  | Direction.negative => ⟨GenericIterator.BackwardIterator base⟩

/-- The member `Base()`. -/
def Base (it : StrandIterator) : SequencePosIterator :=
  it.it_.Base

/-- The member `GetDirection()`. -/
def GetDirection (it : StrandIterator) : Direction :=
  it.it_.GetDirection

/-- Modelled from the spec: the member `Invert()`. -/
def Invert (it : StrandIterator) : StrandIterator :=
  ⟨it.it_.Invert⟩

/-- Modelled from the spec: `operator ==`. -/
def eq (a b : StrandIterator) : Bool :=
  a.it_.Equal b.it_

/-- Modelled from the spec: the member `GetNaked()`, the cell the iterator references
in the buffer `l`; there is none at `end()`. -/
def GetNaked (l : List Cell) (it : StrandIterator) : Option Cell :=
  match it.Base with
  | none => none
  | some id => cellOf l id

/-- Modelled from the spec: `operator *`. It yields the stored letter for a positive
iterator and its complement for a negative one; dereferencing an iterator that
references no cell has no defined value, here `none`. -/
def deref (l : List Cell) (it : StrandIterator) : Option Letter :=
  (it.GetNaked l).map (fun c => it.it_.TranslateChar c.value.actual)

/-- Modelled from the spec: the member `GetOriginalPosition()`. -/
def GetOriginalPosition (l : List Cell) (it : StrandIterator) : Option Pos :=
  (it.GetNaked l).map (fun c => c.value.pos)

/-- Modelled from the spec: the member `GetElementId()`, the stable identity of the
current cell. -/
def GetElementId (l : List Cell) (it : StrandIterator) : Option Nat :=
  (it.GetNaked l).map Cell.id

/-- Modelled from the spec: the member `AtValidPosition()`, true when the underlying
cursor is not `end()` and the referenced cell is live and not a separator. -/
def AtValidPosition (l : List Cell) (it : StrandIterator) : Bool :=
  match it.GetNaked l with
  | none => false
  | some c => c.valid

/-- Modelled from the spec: the prefix `operator ++`. -/
def next (l : List Cell) (it : StrandIterator) : StrandIterator :=
  ⟨it.it_.MoveForward l⟩

/-- Modelled from the spec: the prefix `operator --`. -/
def prev (l : List Cell) (it : StrandIterator) : StrandIterator :=
  ⟨it.it_.MoveBackward l⟩

end StrandIterator

/-! ### Construction -/

/-- Cells with the consecutive identities `id`, `id + 1`, ... that hold the given
characters. -/
def makeCells : Nat → List DNACharacter → List Cell
  | _, [] => []
  | id, ch :: rest => ⟨id, ch⟩ :: makeCells (id + 1) rest

/-- The separator cell with the identity `id`. The spec does not give the position
field of a separator; the model uses the deleted-position sentinel. -/
def separatorCell (id : Nat) : Cell :=
  ⟨id, ⟨Letter.SEPARATION_CHAR, DELETED_POS⟩⟩

/-- Modelled from the spec: the buffer and the anchors built at construction. Each
chromosome contributes its cells and then a separator cell, the last chromosome
included. The begin anchor of a chromosome is at its first cell (at its separator when
it has no cell), the end anchor is at its separator. The result is the buffer, the
begin anchors and the end anchors; `id` is the first identity to use. -/
def build : List (List DNACharacter) → Nat →
    List Cell × List SequencePosIterator × List SequencePosIterator
  | [], _ => ([], [], [])
  | content :: rest, id =>
    let r := build rest (id + content.length + 1)
    (makeCells id content ++ separatorCell (id + content.length) :: r.1,
      some id :: r.2.1, some (id + content.length) :: r.2.2)

/-- The characters of one chromosome: the letters of the record, coerced to the
alphabet, with the given original positions. -/
def chromosome (record : FASTARecord) (original : List Nat) : List DNACharacter :=
  List.zipWith (fun ch p => ⟨coerce ch, some p⟩) record.sequence original

/-- Modelled from the spec: the constructor
`DNASequence(const std::vector<FASTARecord> & record, const std::vector<std::vector<Pos> > & original)`,
which takes the original positions of every chromosome. -/
def DNASequence.ofOriginal (record : List FASTARecord) (original : List (List Nat)) :
    DNASequence :=
  let r := build (List.zipWith chromosome record original) 0
  { sequence_ := r.1, posBegin_ := r.2.1, posEnd_ := r.2.2,
    iteratorStore_ := [], cursors := [], nextId := r.1.length }

/-- Modelled from the spec: the constructor
`DNASequence(const std::vector<FASTARecord> & record)`. The original position of a
cell is its index in the sequence of its record. -/
def DNASequence.ofRecords (record : List FASTARecord) : DNASequence :=
  DNASequence.ofOriginal record (record.map (fun r => List.range r.sequence.length))

namespace DNASequence

/-- Modelled from the spec: `TotalSize()`, the number of live cells of the
chromosomes, separators excluded. -/
def TotalSize (st : DNASequence) : Nat :=
  (st.sequence_.filter Cell.valid).length

/-- Modelled from the spec: `ChrNumber()`, the number of chromosomes. -/
def ChrNumber (st : DNASequence) : Nat :=
  st.posBegin_.length

/-- Modelled from the spec: `PositiveBegin(chr)`, the positive iterator at the begin
anchor of the chromosome. -/
def PositiveBegin (st : DNASequence) (chr : Nat) : StrandIterator :=
  StrandIterator.ofBase ((st.posBegin_.get? chr).join) Direction.positive

/-- Modelled from the spec: `PositiveEnd(chr)`, the positive iterator at the end anchor
of the chromosome. -/
def PositiveEnd (st : DNASequence) (chr : Nat) : StrandIterator :=
  StrandIterator.ofBase ((st.posEnd_.get? chr).join) Direction.positive

/-- Modelled from the spec: `NegativeBegin(chr)`, the negative iterator at the last
cell of the chromosome, one step backward from its end anchor. -/
def NegativeBegin (st : DNASequence) (chr : Nat) : StrandIterator :=
  StrandIterator.ofBase (backward st.sequence_ ((st.posEnd_.get? chr).join))
    Direction.negative

/-- Modelled from the spec: `NegativeEnd(chr)`, the negative iterator one step backward
from the begin anchor of the chromosome. -/
def NegativeEnd (st : DNASequence) (chr : Nat) : StrandIterator :=
  StrandIterator.ofBase (backward st.sequence_ ((st.posBegin_.get? chr).join))
    Direction.negative

/-- The member `Begin(Direction, chr)`. -/
def Begin (st : DNASequence) : Direction → Nat → StrandIterator
  | Direction.positive, chr => st.PositiveBegin chr
  | Direction.negative, chr => st.NegativeBegin chr

/-- The member `End(Direction, chr)`. -/
def End (st : DNASequence) : Direction → Nat → StrandIterator
  | Direction.positive, chr => st.PositiveEnd chr
  | Direction.negative, chr => st.NegativeEnd chr

end DNASequence

/-- What one step of a traversal reads at a cell: the identity of the cell, the letter
the iterator yields there and the original position of the cell. -/
structure Reading where
  id : Nat
  letter : Letter
  pos : Pos
deriving DecidableEq, Repr

/-- The loop `for(it = first; it != last; ++it)` that reads the identity, the letter
and the original position at every step. The first argument bounds the number of
steps; the result is `none` when the bound is reached before `last`, or when the
iterator comes to reference no cell. -/
def traverse (l : List Cell) : Nat → StrandIterator → StrandIterator → Option (List Reading)
  | 0, _, _ => none
  | fuel + 1, it, last =>
    if it.eq last then some []
    else
      match it.GetNaked l with
      | none => none
      | some c =>
        (traverse l fuel (it.next l) last).map
          (fun r => ⟨c.id, it.it_.TranslateChar c.value.actual, c.value.pos⟩ :: r)

/-- The reading of a cell by a positive iterator. -/
def Cell.reading (c : Cell) : Reading :=
  ⟨c.id, c.value.actual, c.value.pos⟩

/-- The same reading with the letter replaced by its complement. -/
def Reading.complement (r : Reading) : Reading :=
  ⟨r.id, Translate r.letter, r.pos⟩

/-! ### `Replace` -/

/-- A call of a notification function, with the two iterators passed to it. -/
inductive Notification where
  | before (first last : StrandIterator)
  | after (first last : StrandIterator)
deriving DecidableEq, Repr

/-- The outcome of a call of `Replace`: whether the edit was accepted, the state after
the call, and the notification calls made, in order. -/
structure ReplaceResult where
  accepted : Bool
  state : DNASequence
  calls : List Notification
deriving DecidableEq, Repr

/-- The identities of the `n` cells of the source range: the cell at `it` and the
cells reached by advancing `it` in its own direction. The value is `none` when one of
these positions is not valid, that is, when the range runs into a separator or off the
buffer. -/
def sourceRange (l : List Cell) : Nat → StrandIterator → Option (List Nat)
  | 0, _ => some []
  | n + 1, it =>
    match it.GetNaked l with
    | none => none
    | some c =>
      if c.valid then (sourceRange l n (it.next l)).map (fun ids => c.id :: ids)
      else none

/-- The tombstone that replaces the cell with the identity `id`. -/
def tombstoneCell (id : Nat) : Cell :=
  ⟨id, ⟨Letter.DELETED_CHAR, DELETED_POS⟩⟩

/-- Modelled from the spec: the buffer operation `erase` on the cells with the given
identities. A cell is tombstoned in place: its letter becomes the deleted sentinel and
its position the deleted-position sentinel; no other cell moves. -/
def tombstone (ids : List Nat) (l : List Cell) : List Cell :=
  l.map (fun c => if c.id ∈ ids then tombstoneCell c.id else c)

/-- Modelled from the spec: the buffer operation `insert_before`, for a run of new
cells: they are placed immediately before the cell with the identity `id`. -/
def insertBefore : List Cell → Nat → List Cell → List Cell
  | [], _, new => new
  | c :: l, id, new => if c.id = id then new ++ c :: l else c :: insertBefore l id new

/-- The cells from the cell with the identity `id` on, that cell included. -/
def cellsFrom : List Cell → Nat → List Cell
  | [], _ => []
  | c :: l, id => if c.id = id then c :: l else cellsFrom l id

/-- The letters stored for the inserted content. A positive source stores the target
letters as they are read. A negative source stores their complements in reverse order,
so that the negative iterator reads the target letters in order. -/
def storedLetters (target : List Letter) : Direction → List Letter
  | Direction.positive => target
  | Direction.negative => (target.map Translate).reverse

/-- The new cells of an edit: they hold the stored letters, carry the deleted-position
sentinel and take the identities `id`, `id + 1`, ... -/
def freshCells (id : Nat) (target : List Letter) (dir : Direction) : List Cell :=
  makeCells id ((storedLetters target dir).map (fun a => ⟨a, DELETED_POS⟩))

/-- The identities of the cells of the source range in the order of the buffer. The
list `ids` is in the order the source iterator visits them, which is the reverse of
the buffer order for a negative source. -/
def orderedIds (ids : List Nat) : Direction → List Nat
  | Direction.positive => ids
  | Direction.negative => ids.reverse

/-- Modelled from the spec: the cursor before which the new cells are inserted. The
new cells are inserted before the tombstoned region, that is, before the cell of the
source range that comes first in the buffer, whatever the direction of the source. For
an empty source range (a pure insert) there is no such cell, and the new cells come
before the source position in the direction of the source iterator: before the source
cursor for a positive source, before the next cursor of the buffer for a negative
one. -/
def insertionPoint (l : List Cell) (source : StrandIterator) (ids : List Nat) :
    SequencePosIterator :=
  match (orderedIds ids source.GetDirection).head? with
  | some id => some id
  | none =>
    match source.GetDirection with
    | Direction.positive => source.Base
    | Direction.negative => forward l source.Base

/-- The cursor at the first live cell of the buffer `l` at or after the cell with the
identity `id`: the cursor `id` advanced forward until it lands on a live cell. -/
def firstLiveFrom (l : List Cell) (id : Nat) : SequencePosIterator :=
  firstLive (cellsFrom l id)

/-- Modelled from the spec: step 4 of the `Replace` protocol, with scenario S4 and the
relocation invariant. Each subscribed cursor that pointed inside the source range is
put at `landing`, the first still-live cell at or after the spliced-out region; the
other cursors stay. -/
def relocate (st : DNASequence) (ids : List Nat) (landing : SequencePosIterator) :
    List SequencePosIterator :=
  (List.range st.cursors.length).map (fun h =>
    match st.cursorAt h with
    | none => none
    | some id => if h ∈ st.iteratorStore_ ∧ id ∈ ids then landing else some id)

/-- The identity at which the spliced region starts in the buffer after the splice:
the first new cell when there is one, otherwise the cell `point` before which the new
cells were to be inserted, the first tombstone of the region. -/
def regionStart (fresh : List Cell) (point : Nat) : Nat :=
  match fresh.head? with
  | some f => f.id
  | none => point

/-- The begin anchors recomputed on the buffer `l`: the anchor of the first chromosome
is the first live cell, the anchor of every other chromosome is the first live cell
after the separator of the chromosome before it. The spec asks that the anchors delimit
the regions and does not say how they follow an edit. -/
def beginAnchors (l : List Cell) (posEnd : List SequencePosIterator) :
    List SequencePosIterator :=
  match posEnd with
  | [] => []
  | _ :: _ => firstLive l :: (posEnd.dropLast.map (forward l))

/-- The iterators passed to the `after` notification: they span the inserted cells in
the direction of the source. `l` is the buffer after the splice, `point` the identity
of the cell before which the `m` new cells with the identities `id`, ... were
inserted. -/
def insertedSpan (l : List Cell) (point id m : Nat) :
    Direction → StrandIterator × StrandIterator
  | Direction.positive =>
    let last := firstLive (cellsFrom l point)
    (StrandIterator.ofBase (if m = 0 then last else some id) Direction.positive,
      StrandIterator.ofBase last Direction.positive)
  | Direction.negative =>
    let last := backward l (some (if m = 0 then point else id))
    (StrandIterator.ofBase (if m = 0 then last else some (id + m - 1)) Direction.negative,
      StrandIterator.ofBase last Direction.negative)

/-- Modelled from the spec: `DNASequence::Replace`, whose body is not in
`dnasequence.h`. `target` is the list of the `targetDistance` letters the target
iterator yields; `before` and `after` say whether the notification functions were
supplied.

Validation comes first. The call is rejected, with the state unchanged and no
notification, when the source range is not made of `sourceDistance` valid cells (it
runs into a separator or off the buffer), when the target content holds a separator,
or when the insertion point references no live cell. Otherwise the steps run in the
order of the protocol: the subscribers inside the source range are determined;
`before` is called with the range to be removed; the source cells are tombstoned and
the new cells, which carry the deleted-position sentinel, are inserted before the
tombstoned region; the subscribers are relocated to the first still-live cell at or
after the spliced-out region, which is the first inserted cell when there is one;
`after` is called with the inserted range. -/
def DNASequence.Replace (st : DNASequence) (source : StrandIterator) (sourceDistance : Nat)
    (target : List Letter) (before after : Bool) : ReplaceResult :=
  let l := st.sequence_
  match sourceRange l sourceDistance source with
  | none => ⟨false, st, []⟩
  | some ids =>
    if target.contains Letter.SEPARATION_CHAR then ⟨false, st, []⟩
    else
      match (insertionPoint l source ids).bind (cellOf l) with
      | none => ⟨false, st, []⟩
      | some point =>
        if !point.live then ⟨false, st, []⟩
        else
          let dir := source.GetDirection
          let callsBefore :=
            if before then
              [Notification.before source ((StrandIterator.next l)^[sourceDistance] source)]
            else []
          let fresh := freshCells st.nextId target dir
          let l1 := insertBefore (tombstone ids l) point.id fresh
          let span := insertedSpan l1 point.id st.nextId fresh.length dir
          let callsAfter := if after then [Notification.after span.1 span.2] else []
          ⟨true,
            { sequence_ := l1,
              posBegin_ := beginAnchors l1 st.posEnd_,
              posEnd_ := st.posEnd_,
              iteratorStore_ := st.iteratorStore_,
              cursors := relocate st ids (firstLiveFrom l1 (regionStart fresh point.id)),
              nextId := st.nextId + fresh.length },
            callsBefore ++ callsAfter⟩

/-- Modelled from the spec: subscribing a cursor. The cursor is stored at a new handle
and the handle is recorded in the registry. The result is the new state and the
handle. -/
def DNASequence.SubscribeIterator (st : DNASequence) (it : SequencePosIterator) :
    DNASequence × Nat :=
  ({ st with iteratorStore_ := st.cursors.length :: st.iteratorStore_,
             cursors := st.cursors ++ [it] }, st.cursors.length)

/-- The index of the chromosome a cell lies in: the number of separator cells before
it in the buffer. -/
def chrOf (l : List Cell) (id : Nat) : Nat :=
  ((cellsBefore l id).filter Cell.separator).length

/-- The invariant of the store: the identities of the cells are distinct and below
`nextId`, the end anchors are the separator cells in order, and the buffer ends with a
separator. -/
def WellFormed (st : DNASequence) : Prop :=
  (st.sequence_.map Cell.id).Nodup ∧
  (∀ c ∈ st.sequence_, c.id < st.nextId) ∧
  st.posEnd_ = (st.sequence_.filter Cell.separator).map (fun c => some c.id) ∧
  (∀ c, st.sequence_.getLast? = some c → c.separator = true)

/-! ### Example stores -/

/-- The store built from the single record `ACGT`. -/
def acgt : DNASequence :=
  DNASequence.ofRecords [⟨"c1", ['A', 'C', 'G', 'T']⟩]

/-- The store of `ACGT` with two cursors subscribed at the cell `C`; their handles are
0 and 1. -/
def acgtSubscribed : DNASequence :=
  ((acgt.SubscribeIterator (some 1)).1.SubscribeIterator (some 1)).1

/-- The store built from the two records `ACGT` and `GGXA`. -/
def twoChromosomes : DNASequence :=
  DNASequence.ofRecords [⟨"c1", ['A', 'C', 'G', 'T']⟩, ⟨"c2", ['G', 'G', 'X', 'A']⟩]

/-- The identity of the first cell of the chromosome `c` in a freshly built buffer:
every chromosome before it takes one identity per cell and one for its separator. -/
def firstId (contents : List (List DNACharacter)) (c : Nat) : Nat :=
  ((contents.take c).map (fun x => x.length + 1)).sum

/-- The readings of a positive traversal of the chromosome `c` of a freshly built
buffer: its cells in order, each with the letter and the position it was built
with. -/
def chromosomeReadings (contents : List (List DNACharacter)) (c : Nat) : List Reading :=
  (makeCells (firstId contents c) ((contents.get? c).getD [])).map Cell.reading

/-- A source range of `n` cells from `source` crosses a separator: one of its `n`
positions is at a separator cell, or it begins at a cell of one chromosome and ends at
a cell of another. -/
def CrossesSeparator (l : List Cell) (source : StrandIterator) (n : Nat) : Prop :=
  (∃ j, j < n ∧ ∃ c, ((StrandIterator.next l)^[j] source).GetNaked l = some c ∧
    c.separator = true) ∨
  (∃ first last, source.GetNaked l = some first ∧
    ((StrandIterator.next l)^[n - 1] source).GetNaked l = some last ∧
    chrOf l first.id ≠ chrOf l last.id)

/-- A stage record that `ReadStageFile` accepts: both numbers fit an `int`, the vertex
size is at least 2 and the minimum branch size is not negative. -/
def goodStage (p : Int × Int) : Prop :=
  2 ≤ p.1 ∧ p.1 ≤ INT_MAX ∧ 0 ≤ p.2 ∧ p.2 ≤ INT_MAX

/-- The messages of the runtime errors `ReadStageFile` throws on an opened file. -/
def stageFileErrors : List String :=
  ["cannot read stage file",
   "number of stages must be nonnegative",
   "too few records in the stage file",
   "vertex size in stage record must be at least 2",
   "minimum branch size in stage record must be nonnegative"]

/-! # Theorems -/

/-! ## Stage files -/

theorem extractInt_eq_some (s : List Int) (t : Int) (rest : List Int) :
    extractInt s = some (t, rest) ↔ s = t :: rest ∧ INT_MIN ≤ t ∧ t ≤ INT_MAX := by
  cases s with
  | nil => simp [extractInt]
  | cons a l =>
    by_cases h : INT_MIN ≤ a ∧ a ≤ INT_MAX
    · simp only [extractInt, if_pos h, Option.some.injEq, Prod.mk.injEq, List.cons.injEq]
      constructor
      · rintro ⟨rfl, rfl⟩
        exact ⟨⟨rfl, rfl⟩, h⟩
      · rintro ⟨⟨rfl, rfl⟩, _⟩
        exact ⟨rfl, rfl⟩
    · simp only [extractInt, if_neg h, List.cons.injEq]
      constructor
      · intro h0
        cases h0
      · rintro ⟨⟨rfl, rfl⟩, h1⟩
        exact absurd h1 h

theorem take_succ_set {α : Type} (l : List α) : ∀ (i : Nat) (x : α), i < l.length →
    (l.set i x).take (i + 1) = l.take i ++ [x] := by
  induction l with
  | nil => intro i x h; simp at h
  | cons a l ih =>
    intro i x h
    cases i with
    | zero => simp
    | succ i =>
      simp only [List.set_cons_succ, List.take_succ_cons, List.cons_append, List.cons.injEq,
        true_and]
      exact ih i x (by simpa using h)

theorem stageLoop_ok (r : Nat) : ∀ (i : Nat) (ret : List (Int × Int)) (s : List Int)
    (res : List (Int × Int)), ret.length = i + r →
    (stageLoop r i ret s = Except.ok res ↔
      ∃ ps rest, ps.length = r ∧ s = pairTokens ps ++ rest ∧ (∀ p ∈ ps, goodStage p) ∧
        res = ret.take i ++ ps) := by
  induction r with
  | zero =>
    intro i ret s res hlen
    simp only [stageLoop, Except.ok.injEq]
    constructor
    · intro h
      refine ⟨[], s, rfl, by simp [pairTokens], by simp, ?_⟩
      rw [← h, List.append_nil, List.take_of_length_le (by omega)]
    · rintro ⟨ps, rest, hps, -, -, hres⟩
      have : ps = [] := List.length_eq_zero.mp hps
      subst this
      rw [hres, List.append_nil, List.take_of_length_le (by omega)]
  | succ r ih =>
    intro i ret s res hlen
    have hset : ∀ x : Int × Int, (ret.set i x).take (i + 1) = ret.take i ++ [x] :=
      fun x => take_succ_set ret i x (by omega)
    constructor
    · intro h
      unfold stageLoop at h
      cases h1 : extractInt s with
      | none => rw [h1] at h; cases h
      | some v1 =>
        obtain ⟨first, s1⟩ := v1
        rw [h1] at h
        simp only at h
        cases h2 : extractInt s1 with
        | none => rw [h2] at h; cases h
        | some v2 =>
          obtain ⟨second, s2⟩ := v2
          rw [h2] at h
          simp only at h
          by_cases hf : first < 2
          · rw [if_pos hf] at h; cases h
          · rw [if_neg hf] at h
            by_cases hs : second < 0
            · rw [if_pos hs] at h; cases h
            · rw [if_neg hs] at h
              obtain ⟨e1, -, e1'⟩ := (extractInt_eq_some _ _ _).mp h1
              obtain ⟨e2, -, e2'⟩ := (extractInt_eq_some _ _ _).mp h2
              obtain ⟨ps, rest, hps, hs2, hgood, hres⟩ :=
                (ih (i + 1) (ret.set i (first, second)) s2 res
                  (by rw [List.length_set]; omega)).mp h
              refine ⟨(first, second) :: ps, rest, by simp [hps], ?_, ?_, ?_⟩
              · rw [e1, e2, hs2]; rfl
              · intro p hp
                rcases List.mem_cons.mp hp with rfl | hp
                · exact ⟨by omega, e1', by omega, e2'⟩
                · exact hgood p hp
              · rw [hres, hset]; simp
    · rintro ⟨ps, rest, hps, hs, hgood, hres⟩
      cases ps with
      | nil => simp at hps
      | cons p ps =>
        obtain ⟨first, second⟩ := p
        obtain ⟨g1, g2, g3, g4⟩ := hgood (first, second) (List.mem_cons_self _ _)
        simp only at g1 g2 g3 g4
        have hI1 : INT_MIN ≤ first := by unfold INT_MIN; omega
        have hI2 : INT_MIN ≤ second := by unfold INT_MIN; omega
        have h1 : extractInt s = some (first, second :: (pairTokens ps ++ rest)) :=
          (extractInt_eq_some _ _ _).mpr ⟨by rw [hs]; rfl, hI1, g2⟩
        have h2 : extractInt (second :: (pairTokens ps ++ rest)) =
            some (second, pairTokens ps ++ rest) :=
          (extractInt_eq_some _ _ _).mpr ⟨rfl, hI2, g4⟩
        unfold stageLoop
        rw [h1]
        simp only
        rw [h2]
        simp only
        rw [if_neg (by omega), if_neg (by omega)]
        refine (ih (i + 1) (ret.set i (first, second)) (pairTokens ps ++ rest) res
          (by rw [List.length_set]; omega)).mpr ⟨ps, rest, by simpa using hps, rfl, ?_, ?_⟩
        · intro p hp
          exact hgood p (List.mem_cons_of_mem _ hp)
        · rw [hres, hset]; simp

theorem stageLoop_error (r : Nat) : ∀ (i : Nat) (ret : List (Int × Int)) (s : List Int)
    (e : String), stageLoop r i ret s = Except.error e → e ∈ stageFileErrors := by
  induction r with
  | zero =>
    intro i ret s e h
    simp [stageLoop] at h
  | succ r ih =>
    intro i ret s e h
    unfold stageLoop at h
    cases h1 : extractInt s with
    | none =>
      rw [h1] at h
      simp only [Except.error.injEq] at h
      subst h
      simp [stageFileErrors]
    | some v1 =>
      obtain ⟨first, s1⟩ := v1
      rw [h1] at h
      simp only at h
      cases h2 : extractInt s1 with
      | none =>
        rw [h2] at h
        simp only [Except.error.injEq] at h
        subst h
        simp [stageFileErrors]
      | some v2 =>
        obtain ⟨second, s2⟩ := v2
        rw [h2] at h
        simp only at h
        by_cases hf : first < 2
        · rw [if_pos hf] at h
          simp only [Except.error.injEq] at h
          subst h
          simp [stageFileErrors]
        · rw [if_neg hf] at h
          by_cases hs : second < 0
          · rw [if_pos hs] at h
            simp only [Except.error.injEq] at h
            subst h
            simp [stageFileErrors]
          · rw [if_neg hs] at h
            exact ih _ _ _ _ h

theorem ReadStageFile_ok_iff (tokens : List Int) (ps : List (Int × Int)) :
    ReadStageFile (some tokens) = Except.ok ps ↔
      ∃ rest, tokens = (ps.length : Int) :: (pairTokens ps ++ rest) ∧
        (ps.length : Int) ≤ INT_MAX ∧ ∀ p ∈ ps, goodStage p := by
  unfold ReadStageFile
  simp only
  constructor
  · intro h
    cases h1 : extractInt tokens with
    | none => rw [h1] at h; cases h
    | some v =>
      obtain ⟨count, s1⟩ := v
      rw [h1] at h
      simp only at h
      by_cases hc : count < 0
      · rw [if_pos hc] at h; cases h
      · rw [if_neg hc] at h
        obtain ⟨e1, -, e1'⟩ := (extractInt_eq_some _ _ _).mp h1
        obtain ⟨qs, rest, hlen, hs1, hgood, hres⟩ :=
          (stageLoop_ok count.toNat 0 _ s1 ps (by simp)).mp h
        simp only [List.take_zero, List.nil_append] at hres
        subst hres
        have hcount : (ps.length : Int) = count := by
          rw [hlen]; exact Int.toNat_of_nonneg (by omega)
        refine ⟨rest, ?_, ?_, hgood⟩
        · rw [e1, hs1, hcount]
        · rw [hcount]; exact e1'
  · rintro ⟨rest, htok, hmax, hgood⟩
    have hI : INT_MIN ≤ (ps.length : Int) := by unfold INT_MIN; omega
    have h1 : extractInt tokens = some ((ps.length : Int), pairTokens ps ++ rest) :=
      (extractInt_eq_some _ _ _).mpr ⟨htok, hI, hmax⟩
    rw [h1]
    simp only
    rw [if_neg (by omega)]
    refine (stageLoop_ok _ 0 _ _ ps (by simp)).mpr ⟨ps, rest, by simp, rfl, hgood, by simp⟩

theorem ReadStageFile_error_mem (tokens : List Int) (e : String)
    (h : ReadStageFile (some tokens) = Except.error e) : e ∈ stageFileErrors := by
  unfold ReadStageFile at h
  simp only at h
  cases h1 : extractInt tokens with
  | none =>
    rw [h1] at h
    simp only [Except.error.injEq] at h
    subst h
    simp [stageFileErrors]
  | some v =>
    obtain ⟨count, s1⟩ := v
    rw [h1] at h
    simp only at h
    by_cases hc : count < 0
    · rw [if_pos hc] at h
      simp only [Except.error.injEq] at h
      subst h
      simp [stageFileErrors]
    · rw [if_neg hc] at h
      exact stageLoop_error _ _ _ _ _ h

/-- C9, as amended. On an opened stage file, seen as its integer tokens, `ReadStageFile`
returns the list `ps` exactly when the first token is the count `ps.length`, this count
fits an `int`, and the tokens that follow begin with the pairs of `ps` in order, every
pair having a vertex size between 2 and `INT_MAX` and a minimum branch size between 0
and `INT_MAX`. In every other case it throws a runtime error with one of the five
messages of `stageFileErrors`; no list is returned then. -/
theorem ReadStageFile_validation (tokens : List Int) :
    (∀ ps, ReadStageFile (some tokens) = Except.ok ps ↔
      ∃ rest, tokens = (ps.length : Int) :: (pairTokens ps ++ rest) ∧
        (ps.length : Int) ≤ INT_MAX ∧
        ∀ p ∈ ps, 2 ≤ p.1 ∧ p.1 ≤ INT_MAX ∧ 0 ≤ p.2 ∧ p.2 ≤ INT_MAX) ∧
    ((∃ ps, ReadStageFile (some tokens) = Except.ok ps) ∨
      ∃ e, e ∈ stageFileErrors ∧ ReadStageFile (some tokens) = Except.error e) := by
  refine ⟨fun ps => ReadStageFile_ok_iff tokens ps, ?_⟩
  cases h : ReadStageFile (some tokens) with
  | ok ps => exact Or.inl ⟨ps, rfl⟩
  | error e => exact Or.inr ⟨e, ReadStageFile_error_mem tokens e h, rfl⟩

/-- C9 as stated fails. The stage file `1 2147483648 0` has the count 1 followed by one
pair with vertex size at least 2 and a minimum branch size that is not negative, yet
`ReadStageFile` throws: the vertex size does not fit an `int`, so its extraction
fails. -/
theorem ReadStageFile_rejects_wide_token :
    (∃ (ps : List (Int × Int)) (rest : List Int),
      [1, 2147483648, 0] = (ps.length : Int) :: (pairTokens ps ++ rest) ∧
        ∀ p ∈ ps, 2 ≤ p.1 ∧ 0 ≤ p.2) ∧
    ReadStageFile (some [1, 2147483648, 0]) =
      Except.error "too few records in the stage file" := by
  refine ⟨⟨[(2147483648, 0)], [], by simp [pairTokens], by simp⟩, ?_⟩
  simp [ReadStageFile, extractInt, stageLoop, INT_MIN, INT_MAX]

/-- The part of C10 that holds: the two built-in stage sets are not empty, and every
stage of a built-in set or of a list `ReadStageFile` returns has a vertex size of at
least 2 and a minimum branch size that is not negative. -/
theorem stage_lists_well_formed :
    LooseStageFile ≠ [] ∧ FineStageFile ≠ [] ∧
    (∀ p ∈ LooseStageFile, 2 ≤ p.1 ∧ 0 ≤ p.2) ∧
    (∀ p ∈ FineStageFile, 2 ≤ p.1 ∧ 0 ≤ p.2) ∧
    (∀ file ps, ReadStageFile file = Except.ok ps → ∀ p ∈ ps, 2 ≤ p.1 ∧ 0 ≤ p.2) := by
  refine ⟨by simp [LooseStageFile], by simp [FineStageFile], ?_, ?_, ?_⟩
  · intro p hp
    simp only [LooseStageFile, List.mem_cons, List.mem_singleton, List.not_mem_nil,
      or_false] at hp
    rcases hp with rfl | rfl | rfl | rfl <;> decide
  · intro p hp
    simp only [FineStageFile, List.mem_cons, List.mem_singleton, List.not_mem_nil,
      or_false] at hp
    rcases hp with rfl | rfl | rfl <;> decide
  · intro file ps h p hp
    cases file with
    | none => simp [ReadStageFile] at h
    | some tokens =>
      obtain ⟨_, _, _, hgood⟩ := (ReadStageFile_ok_iff tokens ps).mp h
      obtain ⟨g1, _, g3, _⟩ := hgood p hp
      exact ⟨g1, g3⟩

/-- C10 fails on the stage file that holds the single token `0`. `ReadStageFile` returns
the empty list normally, and `main`, run with `-k` on that file and one FASTA record,
constructs the block finder, runs no stage and then reads `stage.back()` of the empty
vector. -/
theorem main_reads_back_of_empty_stage_list :
    ReadStageFile (some [0]) = Except.ok [] ∧
    main 1073741824
      { parameters := none, stageFile := some [0],
        fileName := [("a.fasta", some [⟨"c1", ['A', 'C', 'G', 'T']⟩])],
        inRAM := false, maxIterations := 4, minBlockSize := 5000 } =
      ⟨[Action.constructBlockFinder [⟨"c1", ['A', 'C', 'G', 'T']⟩] false],
        Ending.backOfEmptyVector⟩ := by
  constructor
  · simp [ReadStageFile, extractInt, stageLoop, INT_MIN, INT_MAX]
  · simp [main, selectStage, ReadStageFile, extractInt, stageLoop, INT_MIN, INT_MAX,
      readFiles, sumSizes, SIZE_T_RANGE]

/-! ## The input cap -/

theorem sumSizes_eq (chrList : List FASTARecord) : ∀ acc : Nat,
    sumSizes acc chrList = if chrList = [] then acc
      else (acc + totalLength chrList) % SIZE_T_RANGE := by
  induction chrList with
  | nil => intro acc; simp [sumSizes]
  | cons r rest ih =>
    intro acc
    simp only [sumSizes, ih, totalLength, List.map_cons, List.sum_cons]
    by_cases hr : rest = []
    · subst hr
      simp
    · simp only [if_neg hr, reduceCtorEq, if_false]
      rw [Nat.mod_add_mod, Nat.add_assoc]

theorem sumSizes_zero (chrList : List FASTARecord) (h : totalLength chrList < SIZE_T_RANGE) :
    sumSizes 0 chrList = totalLength chrList := by
  rw [sumSizes_eq]
  by_cases hc : chrList = []
  · subst hc; simp [totalLength]
  · rw [if_neg hc, Nat.zero_add, Nat.mod_eq_of_lt h]

/-- C6. Let `main` have selected its stages and read the FASTA records `chrList`, whose
sequence lengths sum to less than `2 ^ 64` (they are all in memory). Then the block
finder is constructed if and only if that sum is at most `MAX_INPUT_SIZE`, and it is
then the first action, on exactly `chrList`. When the sum exceeds `MAX_INPUT_SIZE`,
`main` ends with the runtime error "Input is larger than 1 GB, can't proceed" and has
performed no action at all: no store was constructed and no simplification ran. -/
theorem main_input_size_cap (MAX_INPUT_SIZE : Nat) (cmd : CmdLine)
    (stage : List (Int × Int)) (chrList : List FASTARecord)
    (hstage : selectStage cmd = Except.ok stage)
    (hread : readFiles cmd.fileName [] = Except.ok chrList)
    (hmem : totalLength chrList < SIZE_T_RANGE) :
    ((∃ a ∈ (main MAX_INPUT_SIZE cmd).actions, a.isConstruct = true) ↔
      totalLength chrList ≤ MAX_INPUT_SIZE) ∧
    (totalLength chrList ≤ MAX_INPUT_SIZE →
      (main MAX_INPUT_SIZE cmd).actions.head? =
        some (Action.constructBlockFinder chrList cmd.inRAM)) ∧
    (MAX_INPUT_SIZE < totalLength chrList →
      main MAX_INPUT_SIZE cmd =
        ⟨[], Ending.runtimeError "Input is larger than 1 GB, can't proceed"⟩) := by
  have hbig : MAX_INPUT_SIZE < totalLength chrList →
      main MAX_INPUT_SIZE cmd =
        ⟨[], Ending.runtimeError "Input is larger than 1 GB, can't proceed"⟩ := by
    intro h
    unfold main
    rw [hstage]
    simp only
    rw [hread]
    simp only [sumSizes_zero chrList hmem]
    rw [if_pos h]
  have hsmall : totalLength chrList ≤ MAX_INPUT_SIZE →
      (main MAX_INPUT_SIZE cmd).actions.head? =
        some (Action.constructBlockFinder chrList cmd.inRAM) := by
    intro h
    unfold main
    rw [hstage]
    simp only
    rw [hread]
    simp only [sumSizes_zero chrList hmem]
    rw [if_neg (by omega)]
    cases stage.getLast? <;> simp
  refine ⟨⟨?_, ?_⟩, hsmall, hbig⟩
  · rintro ⟨a, ha, -⟩
    by_contra hlt
    rw [hbig (by omega)] at ha
    simp at ha
  · intro h
    have h1 := hsmall h
    cases hact : (main MAX_INPUT_SIZE cmd).actions with
    | nil => rw [hact] at h1; simp at h1
    | cons a l =>
      rw [hact] at h1
      simp only [List.head?_cons, Option.some.injEq] at h1
      exact ⟨a, List.mem_cons_self _ _, by rw [h1]; rfl⟩

/-- The input cap at a concrete run: one record of four letters under a cap of 1 GB. -/
theorem main_input_size_cap_witness :
    ((∃ a ∈ (main 1073741824
        { parameters := some "loose", stageFile := none,
          fileName := [("a.fasta", some [⟨"c1", ['A', 'C', 'G', 'T']⟩])],
          inRAM := true, maxIterations := 4, minBlockSize := 5000 }).actions,
        a.isConstruct = true) ↔
      totalLength [⟨"c1", ['A', 'C', 'G', 'T']⟩] ≤ 1073741824) ∧
    (totalLength [⟨"c1", ['A', 'C', 'G', 'T']⟩] ≤ 1073741824 →
      (main 1073741824
        { parameters := some "loose", stageFile := none,
          fileName := [("a.fasta", some [⟨"c1", ['A', 'C', 'G', 'T']⟩])],
          inRAM := true, maxIterations := 4, minBlockSize := 5000 }).actions.head? =
        some (Action.constructBlockFinder [⟨"c1", ['A', 'C', 'G', 'T']⟩] true)) ∧
    (1073741824 < totalLength [⟨"c1", ['A', 'C', 'G', 'T']⟩] →
      main 1073741824
        { parameters := some "loose", stageFile := none,
          fileName := [("a.fasta", some [⟨"c1", ['A', 'C', 'G', 'T']⟩])],
          inRAM := true, maxIterations := 4, minBlockSize := 5000 } =
        ⟨[], Ending.runtimeError "Input is larger than 1 GB, can't proceed"⟩) :=
  main_input_size_cap 1073741824
    { parameters := some "loose", stageFile := none,
      fileName := [("a.fasta", some [⟨"c1", ['A', 'C', 'G', 'T']⟩])],
      inRAM := true, maxIterations := 4, minBlockSize := 5000 }
    LooseStageFile [⟨"c1", ['A', 'C', 'G', 'T']⟩]
    (by simp [selectStage, defaultParameters]) (by simp [readFiles])
    (by simp [totalLength, SIZE_T_RANGE])

/-! ## `ProperKMer` -/

theorem ProperKMerLoop_result {It : Type} (V : It → Bool) (adv : It → It) (r : Nat) :
    ∀ (it : It) (log : List It),
      (ProperKMerLoop V adv r it log).result = true ↔ ∀ j < r, V (adv^[j] it) = true := by
  induction r with
  | zero => intro it log; simp [ProperKMerLoop]
  | succ r ih =>
    intro it log
    unfold ProperKMerLoop
    by_cases hv : V it = true
    · simp only [hv, Bool.not_true, Bool.false_eq_true, if_false]
      rw [ih]
      constructor
      · intro h j hj
        cases j with
        | zero => simpa using hv
        | succ j =>
          rw [Function.iterate_succ_apply]
          exact h j (by omega)
      · intro h j hj
        have := h (j + 1) (by omega)
        rwa [Function.iterate_succ_apply] at this
    · have hv' : V it = false := by simpa using hv
      simp only [hv', Bool.not_false, if_true]
      constructor
      · intro h; cases h
      · intro h
        have := h 0 (by omega)
        simp [hv'] at this

theorem ProperKMerLoop_stops {It : Type} (V : It → Bool) (adv : It → It) (r : Nat) :
    ∀ (it : It) (log : List It) (j : Nat), j < r → (∀ i < j, V (adv^[i] it) = true) →
      V (adv^[j] it) = false →
      ProperKMerLoop V adv r it log =
        ⟨false, adv^[j] it, log ++ (List.range j).map (fun i => adv^[i] it)⟩ := by
  induction r with
  | zero => intro it log j hj; omega
  | succ r ih =>
    intro it log j hj hbefore hbad
    unfold ProperKMerLoop
    cases j with
    | zero =>
      have hv : V it = false := by simpa using hbad
      simp [hv]
    | succ j =>
      have hv : V it = true := by simpa using hbefore 0 (by omega)
      simp only [hv, Bool.not_true, Bool.false_eq_true, if_false]
      rw [ih (adv it) (log ++ [it]) j (by omega)
        (fun i hi => by
          have := hbefore (i + 1) (by omega)
          rwa [Function.iterate_succ_apply] at this)
        (by rwa [Function.iterate_succ_apply] at hbad)]
      simp [List.range_succ_eq_map, Function.iterate_succ_apply, Function.comp_def]

theorem ProperKMerLoop_completes {It : Type} (V : It → Bool) (adv : It → It) (r : Nat) :
    ∀ (it : It) (log : List It), (∀ i < r, V (adv^[i] it) = true) →
      ProperKMerLoop V adv r it log =
        ⟨true, adv^[r] it, log ++ (List.range r).map (fun i => adv^[i] it)⟩ := by
  induction r with
  | zero => intro it log _; simp [ProperKMerLoop]
  | succ r ih =>
    intro it log hall
    unfold ProperKMerLoop
    have hv : V it = true := by simpa using hall 0 (by omega)
    simp only [hv, Bool.not_true, Bool.false_eq_true, if_false]
    rw [ih (adv it) (log ++ [it])
      (fun i hi => by
        have := hall (i + 1) (by omega)
        rwa [Function.iterate_succ_apply] at this)]
    simp [List.range_succ_eq_map, Function.iterate_succ_apply, Function.comp_def]

/-- C5. `ProperKMer(it, k)` returns true if and only if each of the `k` cells `it`,
`it + 1`, ..., `it + (k - 1)`, stepping with the iterator's own `++`, satisfies
`AtValidPosition()`. It returns false as soon as one of them is not valid: when the
cell at step `j` is the first invalid one, the loop stops there, after `j` advances.
It returns true for `k = 0`. The caller's iterator is the same after the call. -/
theorem ProperKMer_result {It : Type} (AtValidPosition : It → Bool) (advance : It → It)
    (it : It) (k : Nat) :
    (ProperKMer AtValidPosition advance it k = true ↔
      ∀ j < k, AtValidPosition (advance^[j] it) = true) ∧
    (∀ j < k, (∀ i < j, AtValidPosition (advance^[i] it) = true) →
      AtValidPosition (advance^[j] it) = false →
      ProperKMerRun AtValidPosition advance it k =
        ⟨false, advance^[j] it, (List.range j).map (fun i => advance^[i] it)⟩) ∧
    ProperKMer AtValidPosition advance it 0 = true ∧
    callProperKMer AtValidPosition advance it k =
      (ProperKMer AtValidPosition advance it k, it) := by
  refine ⟨ProperKMerLoop_result AtValidPosition advance k it [], ?_, rfl, rfl⟩
  intro j hj hbefore hbad
  have := ProperKMerLoop_stops AtValidPosition advance k it [] j hj hbefore hbad
  simpa [ProperKMerRun] using this

/-- C7, as amended. When all `k` checked cells are valid, for `k >= 1` as for
`k = 0`, `ProperKMer` advances its own cursor exactly `k` times, once after each checked cell, so the cursor
ends one step past the `k`-th cell it checks. Every advance starts from a cell that
was just checked to be valid, so none starts from an end position. -/
theorem ProperKMer_advance_count {It : Type} (AtValidPosition : It → Bool)
    (advance : It → It) (it : It) (k : Nat)
    (hvalid : ∀ j < k, AtValidPosition (advance^[j] it) = true) :
    (ProperKMerRun AtValidPosition advance it k).advancedFrom =
      (List.range k).map (fun j => advance^[j] it) ∧
    (ProperKMerRun AtValidPosition advance it k).advancedFrom.length = k ∧
    (ProperKMerRun AtValidPosition advance it k).it = advance^[k] it ∧
    ∀ x ∈ (ProperKMerRun AtValidPosition advance it k).advancedFrom,
      AtValidPosition x = true := by
  have h := ProperKMerLoop_completes AtValidPosition advance k it [] hvalid
  have hrun : ProperKMerRun AtValidPosition advance it k =
      ⟨true, advance^[k] it, (List.range k).map (fun j => advance^[j] it)⟩ := by
    simpa [ProperKMerRun] using h
  rw [hrun]
  refine ⟨rfl, by simp, rfl, ?_⟩
  intro x hx
  simp only [List.mem_map, List.mem_range] at hx
  obtain ⟨j, hj, rfl⟩ := hx
  exact hvalid j hj

/-- The advance count at a concrete run: cursors are the indices into `ACGT$`, the
four letters are valid and `k = 4`. -/
theorem ProperKMer_advance_count_witness :
    (∀ j < 4, (fun i : Nat => decide (i < 4)) (Nat.succ^[j] 0) = true) ∧
    ((ProperKMerRun (fun i : Nat => decide (i < 4)) Nat.succ 0 4).advancedFrom =
      (List.range 4).map (fun j => Nat.succ^[j] 0) ∧
    (ProperKMerRun (fun i : Nat => decide (i < 4)) Nat.succ 0 4).advancedFrom.length = 4 ∧
    (ProperKMerRun (fun i : Nat => decide (i < 4)) Nat.succ 0 4).it = Nat.succ^[4] 0 ∧
    ∀ x ∈ (ProperKMerRun (fun i : Nat => decide (i < 4)) Nat.succ 0 4).advancedFrom,
      (fun i : Nat => decide (i < 4)) x = true) :=
  ⟨by decide,
    ProperKMer_advance_count (fun i : Nat => decide (i < 4)) Nat.succ 0 4 (by decide)⟩

/-- C7 as stated fails. Cursors are the indices into `ACGT$`, where the four letters
are valid and the position 4 of the separator is not. `ProperKMer(0, 4)` finds its
four cells valid, and it has then advanced its cursor 4 times, not 3: the cursor ends
at position 4, past the fourth cell it checked. -/
theorem ProperKMer_advances_k_times :
    (∀ j < 4, (fun i : Nat => decide (i < 4)) (Nat.succ^[j] 0) = true) ∧
    (ProperKMerRun (fun i : Nat => decide (i < 4)) Nat.succ 0 4).result = true ∧
    (ProperKMerRun (fun i : Nat => decide (i < 4)) Nat.succ 0 4).advancedFrom.length = 4 ∧
    (ProperKMerRun (fun i : Nat => decide (i < 4)) Nat.succ 0 4).advancedFrom.length ≠ 4 - 1 ∧
    (ProperKMerRun (fun i : Nat => decide (i < 4)) Nat.succ 0 4).it = 4 := by
  refine ⟨by decide, ?_, ?_, ?_, ?_⟩ <;>
    simp [ProperKMerRun, ProperKMerLoop]

/-! ## The iterator registry -/

/-- C8. For two handles whose cursors reference cells, `IteratorPtrCompare` holds if
and only if the two cursors reference the same cell, and when it holds the two values
of `IteratorPtrHash` are equal. As distinct cells have distinct addresses, equal hash
values also give `IteratorPtrCompare`. The subscribers that compare equal to a handle
are exactly those whose cursor references its cell. -/
theorem registry_key_is_cell_identity (address : Nat → Nat) (st : DNASequence)
    (a b ca cb : Nat) (ha : st.cursorAt a = some ca) (hb : st.cursorAt b = some cb) :
    (IteratorPtrCompare st.cursorAt a b = true ↔ ca = cb) ∧
    (IteratorPtrCompare st.cursorAt a b = true →
      IteratorPtrHash address st.cursorAt a = IteratorPtrHash address st.cursorAt b) ∧
    (Function.Injective address →
      (IteratorPtrHash address st.cursorAt a = IteratorPtrHash address st.cursorAt b ↔
        IteratorPtrCompare st.cursorAt a b = true)) ∧
    st.iteratorStore_.filter (fun h => IteratorPtrCompare st.cursorAt a h) =
      st.iteratorStore_.filter (fun h => st.cursorAt h == some ca) := by
  refine ⟨?_, ?_, ?_, ?_⟩
  · simp [IteratorPtrCompare, ha, hb]
  · intro h
    have : ca = cb := by simpa [IteratorPtrCompare, ha, hb] using h
    simp [IteratorPtrHash, ha, hb, this]
  · intro hinj
    simp only [IteratorPtrHash, IteratorPtrCompare, ha, hb, Option.map_some',
      Option.some.injEq, beq_iff_eq]
    exact ⟨fun h => hinj h, fun h => by rw [h]⟩
  · apply List.filter_congr
    intro h _
    simp only [IteratorPtrCompare, ha]
    rw [Bool.eq_iff_iff]
    simp only [beq_iff_eq]
    exact eq_comm

/-- The registry key at a concrete state: the store of `ACGT` with two cursors
subscribed at the cell `C`, under the handles 0 and 1. -/
theorem registry_key_is_cell_identity_witness :
    (acgtSubscribed.cursorAt 0 = some 1 ∧ acgtSubscribed.cursorAt 1 = some 1) ∧
    (IteratorPtrCompare acgtSubscribed.cursorAt 0 1 = true ↔ 1 = 1) ∧
    (IteratorPtrCompare acgtSubscribed.cursorAt 0 1 = true →
      IteratorPtrHash (fun id => 4096 + 16 * id) acgtSubscribed.cursorAt 0 =
        IteratorPtrHash (fun id => 4096 + 16 * id) acgtSubscribed.cursorAt 1) :=
  ⟨⟨rfl, rfl⟩,
    (registry_key_is_cell_identity (fun id => 4096 + 16 * id) acgtSubscribed 0 1 1 1
      rfl rfl).1,
    (registry_key_is_cell_identity (fun id => 4096 + 16 * id) acgtSubscribed 0 1 1 1
      rfl rfl).2.1⟩

/-! ## Strand iterators -/

/-- C3. For a positive strand iterator `p` at a valid position, `p.Invert().Invert()`
equals `p` under `operator ==`, with the same cell and the same direction, and
dereferencing `p.Invert()` yields `Translate(*p)`, the complement of the letter `p`
yields. `p.Invert()` is a negative iterator at the cell of `p`. -/
theorem strand_involution (l : List Cell) (p : StrandIterator)
    (hpos : p.GetDirection = Direction.positive) (hvalid : p.AtValidPosition l = true) :
    (p.Invert.Invert).eq p = true ∧
    p.Invert.Invert = p ∧
    p.Invert.Base = p.Base ∧
    p.Invert.GetDirection = Direction.negative ∧
    ∃ x, p.deref l = some x ∧ p.Invert.deref l = some (Translate x) := by
  obtain ⟨g⟩ := p
  cases g with
  | BackwardIterator c => cases hpos
  | ForwardIterator c =>
    refine ⟨by simp [StrandIterator.eq, StrandIterator.Invert, GenericIterator.Invert,
      GenericIterator.Equal], rfl, rfl, rfl, ?_⟩
    simp only [StrandIterator.AtValidPosition] at hvalid
    cases hc : StrandIterator.GetNaked l ⟨GenericIterator.ForwardIterator c⟩ with
    | none => rw [hc] at hvalid; cases hvalid
    | some cell =>
      have hc' : StrandIterator.GetNaked l ⟨GenericIterator.BackwardIterator c⟩ =
          some cell := hc
      refine ⟨cell.value.actual, ?_, ?_⟩
      · simp [StrandIterator.deref, hc, GenericIterator.TranslateChar]
      · simp [StrandIterator.deref, hc', StrandIterator.Invert, GenericIterator.Invert,
          GenericIterator.TranslateChar]

/-- The involution at a concrete iterator: the positive iterator at the cell `C` of the
store of `ACGT`. -/
theorem strand_involution_witness :
    ((StrandIterator.ofBase (some 1) Direction.positive).GetDirection = Direction.positive ∧
      (StrandIterator.ofBase (some 1) Direction.positive).AtValidPosition
        acgt.sequence_ = true) ∧
    (StrandIterator.ofBase (some 1) Direction.positive).Invert.deref acgt.sequence_ =
      some Letter.G ∧
    ((StrandIterator.ofBase (some 1) Direction.positive).Invert.Invert).eq
        (StrandIterator.ofBase (some 1) Direction.positive) = true :=
  ⟨⟨rfl, by decide⟩, by decide,
    (strand_involution acgt.sequence_
      (StrandIterator.ofBase (some 1) Direction.positive) rfl (by decide)).1⟩

/-! ## Cells and cursors of the buffer -/

theorem cellOf_split (a b : List Cell) (m : Cell) (h : m.id ∉ a.map Cell.id) :
    cellOf (a ++ m :: b) m.id = some m := by
  induction a with
  | nil => simp [cellOf]
  | cons x a ih =>
    have hx : x.id ≠ m.id := by
      intro e; apply h; simp [e]
    have ha : m.id ∉ a.map Cell.id := by
      intro e; apply h; simp only [List.map_cons, List.mem_cons]; exact Or.inr e
    have := ih ha
    simp only [cellOf] at this ⊢
    simp only [List.cons_append, List.find?_cons]
    have hx' : (x.id == m.id) = false := by simpa using hx
    rw [hx']
    exact this

theorem cellsAfter_split (a b : List Cell) (m : Cell) (h : m.id ∉ a.map Cell.id) :
    cellsAfter (a ++ m :: b) m.id = b := by
  induction a with
  | nil => simp [cellsAfter]
  | cons x a ih =>
    have hx : x.id ≠ m.id := by
      intro e; apply h; simp [e]
    have ha : m.id ∉ a.map Cell.id := by
      intro e; apply h; simp only [List.map_cons, List.mem_cons]; exact Or.inr e
    simp only [List.cons_append, cellsAfter, if_neg hx]
    exact ih ha

theorem cellsBefore_split (a b : List Cell) (m : Cell) (h : m.id ∉ a.map Cell.id) :
    cellsBefore (a ++ m :: b) m.id = a := by
  induction a with
  | nil => simp [cellsBefore]
  | cons x a ih =>
    have hx : x.id ≠ m.id := by
      intro e; apply h; simp [e]
    have ha : m.id ∉ a.map Cell.id := by
      intro e; apply h; simp only [List.map_cons, List.mem_cons]; exact Or.inr e
    simp only [List.cons_append, cellsBefore, if_neg hx]
    exact congrArg (List.cons x) (ih ha)

theorem nodup_split_left (a b : List Cell) (m : Cell)
    (h : ((a ++ m :: b).map Cell.id).Nodup) : m.id ∉ a.map Cell.id := by
  rw [List.map_append, List.map_cons] at h
  intro hm
  exact (List.nodup_append.mp h).2.2 hm (List.mem_cons_self _ _)

theorem nodup_split_right (a b : List Cell) (m : Cell)
    (h : ((a ++ m :: b).map Cell.id).Nodup) : m.id ∉ b.map Cell.id := by
  rw [List.map_append, List.map_cons] at h
  exact (List.nodup_cons.mp (List.nodup_append.mp h).2.1).1

theorem cellsAfter_reverse_split (a b : List Cell) (m : Cell)
    (h : ((a ++ m :: b).map Cell.id).Nodup) :
    cellsAfter (a ++ m :: b).reverse m.id = a.reverse := by
  have hb := nodup_split_right a b m h
  have : (a ++ m :: b).reverse = b.reverse ++ m :: a.reverse := by simp
  rw [this]
  exact cellsAfter_split _ _ _ (by simpa using hb)

theorem firstLive_cons_live (c : Cell) (l : List Cell) (h : c.live = true) :
    firstLive (c :: l) = some c.id := by
  simp [firstLive, List.find?_cons, h]

theorem firstLive_cons_dead (c : Cell) (l : List Cell) (h : c.live = false) :
    firstLive (c :: l) = firstLive l := by
  simp [firstLive, List.find?_cons, h]

theorem firstLive_append_dead (d l : List Cell) (h : ∀ x ∈ d, x.live = false) :
    firstLive (d ++ l) = firstLive l := by
  induction d with
  | nil => rfl
  | cons x d ih =>
    rw [List.cons_append, firstLive_cons_dead _ _ (h x (List.mem_cons_self _ _))]
    exact ih (fun y hy => h y (List.mem_cons_of_mem _ hy))

theorem firstLive_eq_some (l : List Cell) (id : Nat) (h : firstLive l = some id) :
    ∃ d y r, l = d ++ y :: r ∧ (∀ x ∈ d, x.live = false) ∧ y.live = true ∧ y.id = id := by
  induction l with
  | nil => simp [firstLive] at h
  | cons c l ih =>
    by_cases hc : c.live = true
    · rw [firstLive_cons_live _ _ hc] at h
      exact ⟨[], c, l, rfl, by simp, hc, by simpa using h⟩
    · have hc' : c.live = false := by simpa using hc
      rw [firstLive_cons_dead _ _ hc'] at h
      obtain ⟨d, y, r, hl, hd, hy, hid⟩ := ih h
      refine ⟨c :: d, y, r, by rw [hl]; rfl, ?_, hy, hid⟩
      intro x hx
      rcases List.mem_cons.mp hx with rfl | hx
      · exact hc'
      · exact hd x hx

theorem firstLive_eq_none (l : List Cell) (h : firstLive l = none) :
    ∀ x ∈ l, x.live = false := by
  induction l with
  | nil => simp
  | cons c l ih =>
    by_cases hc : c.live = true
    · rw [firstLive_cons_live _ _ hc] at h; cases h
    · have hc' : c.live = false := by simpa using hc
      rw [firstLive_cons_dead _ _ hc'] at h
      intro x hx
      rcases List.mem_cons.mp hx with rfl | hx
      · exact hc'
      · exact ih h x hx

theorem firstLive_mem (l : List Cell) (id : Nat) (h : firstLive l = some id) :
    id ∈ l.map Cell.id := by
  obtain ⟨d, y, r, hl, -, -, hid⟩ := firstLive_eq_some l id h
  rw [hl, ← hid]
  simp

/-! ## Traversals -/

theorem traverse_forward (l : List Cell) (e : Cell) (post : List Cell)
    (hnodup : (l.map Cell.id).Nodup) (he : e.live = true) :
    ∀ (mid pre : List Cell) (fuel : Nat), l = pre ++ mid ++ e :: post →
      (∀ x ∈ mid, x.live = true) → mid.length < fuel →
      traverse l fuel ⟨GenericIterator.ForwardIterator (firstLive (mid ++ e :: post))⟩
        ⟨GenericIterator.ForwardIterator (some e.id)⟩ = some (mid.map Cell.reading) := by
  intro mid
  induction mid with
  | nil =>
    intro pre fuel _ _ hfuel
    obtain ⟨fuel, rfl⟩ := Nat.exists_eq_succ_of_ne_zero (show fuel ≠ 0 by omega)
    simp [traverse, firstLive_cons_live e post he, StrandIterator.eq, GenericIterator.Equal]
  | cons m mid ih =>
    intro pre fuel hl hlive hfuel
    obtain ⟨fuel, rfl⟩ := Nat.exists_eq_succ_of_ne_zero (show fuel ≠ 0 by omega)
    have hl' : l = pre ++ m :: (mid ++ e :: post) := by rw [hl]; simp
    have hl'' : l = (pre ++ m :: mid) ++ e :: post := hl
    have hm : m.id ∉ pre.map Cell.id := nodup_split_left pre _ m (hl' ▸ hnodup)
    have hme : m.id ≠ e.id := by
      intro heq
      have := nodup_split_left (pre ++ m :: mid) post e (hl'' ▸ hnodup)
      apply this
      rw [← heq]
      simp
    have hstart : firstLive ((m :: mid) ++ e :: post) = some m.id :=
      firstLive_cons_live m _ (hlive m (List.mem_cons_self _ _))
    have hnaked : StrandIterator.GetNaked l ⟨GenericIterator.ForwardIterator (some m.id)⟩ =
        some m := by
      show cellOf l m.id = some m
      rw [hl']
      exact cellOf_split _ _ _ hm
    have hnext : StrandIterator.next l ⟨GenericIterator.ForwardIterator (some m.id)⟩ =
        ⟨GenericIterator.ForwardIterator (firstLive (mid ++ e :: post))⟩ := by
      show (⟨GenericIterator.ForwardIterator (firstLive (cellsAfter l m.id))⟩ :
        StrandIterator) = _
      rw [hl', cellsAfter_split _ _ _ hm]
    rw [hstart]
    unfold traverse
    have hne : StrandIterator.eq ⟨GenericIterator.ForwardIterator (some m.id)⟩
        ⟨GenericIterator.ForwardIterator (some e.id)⟩ = false := by
      simp [StrandIterator.eq, GenericIterator.Equal, GenericIterator.Base, hme]
    rw [hne]
    simp only [Bool.false_eq_true, if_false, hnaked, hnext]
    rw [ih (pre ++ [m]) fuel (by rw [hl]; simp)
      (fun x hx => hlive x (List.mem_cons_of_mem _ hx))
      (by simp at hfuel; omega)]
    simp [Cell.reading, GenericIterator.TranslateChar]

theorem traverse_backward (l pre : List Cell) (hnodup : (l.map Cell.id).Nodup) :
    ∀ (rmid rest : List Cell) (fuel : Nat), l = pre ++ rmid.reverse ++ rest →
      (∀ x ∈ rmid, x.live = true) → rmid.length < fuel →
      traverse l fuel ⟨GenericIterator.BackwardIterator (firstLive (rmid ++ pre.reverse))⟩
        ⟨GenericIterator.BackwardIterator (firstLive pre.reverse)⟩ =
        some (rmid.map (fun c => c.reading.complement)) := by
  intro rmid
  induction rmid with
  | nil =>
    intro rest fuel _ _ hfuel
    obtain ⟨fuel, rfl⟩ := Nat.exists_eq_succ_of_ne_zero (show fuel ≠ 0 by omega)
    simp [traverse, StrandIterator.eq, GenericIterator.Equal]
  | cons m rmid ih =>
    intro rest fuel hl hlive hfuel
    obtain ⟨fuel, rfl⟩ := Nat.exists_eq_succ_of_ne_zero (show fuel ≠ 0 by omega)
    have hl' : l = (pre ++ rmid.reverse) ++ m :: rest := by rw [hl]; simp
    have hm : m.id ∉ (pre ++ rmid.reverse).map Cell.id :=
      nodup_split_left _ _ m (hl' ▸ hnodup)
    have hmpre : m.id ∉ pre.map Cell.id := by
      intro h; apply hm; rw [List.map_append]; exact List.mem_append_left _ h
    have hstart : firstLive ((m :: rmid) ++ pre.reverse) = some m.id :=
      firstLive_cons_live m _ (hlive m (List.mem_cons_self _ _))
    have hnaked : StrandIterator.GetNaked l ⟨GenericIterator.BackwardIterator (some m.id)⟩ =
        some m := by
      show cellOf l m.id = some m
      rw [hl']
      exact cellOf_split _ _ _ hm
    have hnext : StrandIterator.next l ⟨GenericIterator.BackwardIterator (some m.id)⟩ =
        ⟨GenericIterator.BackwardIterator (firstLive (rmid ++ pre.reverse))⟩ := by
      show (⟨GenericIterator.BackwardIterator (firstLive (cellsAfter l.reverse m.id))⟩ :
        StrandIterator) = _
      have := cellsAfter_reverse_split (pre ++ rmid.reverse) rest m (hl' ▸ hnodup)
      rw [← hl'] at this
      rw [this]
      simp
    have hne : StrandIterator.eq ⟨GenericIterator.BackwardIterator (some m.id)⟩
        ⟨GenericIterator.BackwardIterator (firstLive pre.reverse)⟩ = false := by
      cases hf : firstLive pre.reverse with
      | none => simp [StrandIterator.eq, GenericIterator.Equal, GenericIterator.Base]
      | some x =>
        have hx : x ∈ pre.map Cell.id := by
          have := firstLive_mem _ _ hf
          simpa using this
        have : m.id ≠ x := fun h => hmpre (h ▸ hx)
        simp [StrandIterator.eq, GenericIterator.Equal, GenericIterator.Base, this]
    rw [hstart]
    unfold traverse
    rw [hne]
    simp only [Bool.false_eq_true, if_false, hnaked, hnext]
    rw [ih (m :: rest) fuel (by rw [hl]; simp)
      (fun x hx => hlive x (List.mem_cons_of_mem _ hx))
      (by simp at hfuel; omega)]
    simp [Cell.reading, Reading.complement, GenericIterator.TranslateChar]

/-! ## Construction -/

theorem makeCells_ids (cs : List DNACharacter) : ∀ id : Nat,
    (makeCells id cs).map Cell.id = List.range' id cs.length := by
  induction cs with
  | nil => intro id; rfl
  | cons c cs ih =>
    intro id
    simp only [makeCells, List.map_cons, List.length_cons, List.range'_succ, ih]

theorem makeCells_length (cs : List DNACharacter) (id : Nat) :
    (makeCells id cs).length = cs.length := by
  have := congrArg List.length (makeCells_ids cs id)
  simpa using this

theorem makeCells_values (cs : List DNACharacter) : ∀ id : Nat,
    (makeCells id cs).map Cell.value = cs := by
  induction cs with
  | nil => intro id; rfl
  | cons c cs ih =>
    intro id
    simp only [makeCells, List.map_cons, ih]

theorem build_ids (contents : List (List DNACharacter)) : ∀ id : Nat,
    (build contents id).1.map Cell.id = List.range' id (build contents id).1.length := by
  induction contents with
  | nil => intro id; rfl
  | cons content rest ih =>
    intro id
    simp only [build, List.map_append, List.map_cons, makeCells_ids, ih, separatorCell,
      List.length_append, List.length_cons, List.length_range', makeCells_length]
    rw [show content.length + ((build rest (id + content.length + 1)).1.length + 1) =
      ((build rest (id + content.length + 1)).1.length + 1) + content.length by omega,
      ← List.range'_append_1, List.range'_succ]

theorem firstId_succ (content : List DNACharacter) (rest : List (List DNACharacter))
    (c : Nat) : firstId (content :: rest) (c + 1) = content.length + 1 + firstId rest c := by
  simp [firstId]

theorem build_split (contents : List (List DNACharacter)) :
    ∀ (id c : Nat) (content : List DNACharacter), contents.get? c = some content →
      ∃ pre post,
        (build contents id).1 =
          pre ++ makeCells (id + firstId contents c) content ++
            separatorCell (id + firstId contents c + content.length) :: post ∧
        (build contents id).2.1.get? c = some (some (id + firstId contents c)) ∧
        (build contents id).2.2.get? c =
          some (some (id + firstId contents c + content.length)) := by
  induction contents with
  | nil => intro id c content h; simp at h
  | cons x rest ih =>
    intro id c content h
    cases c with
    | zero =>
      simp only [List.get?_cons_zero, Option.some.injEq] at h
      subst h
      exact ⟨[], (build rest (id + x.length + 1)).1, by simp [build, firstId],
        by simp [build, firstId], by simp [build, firstId]⟩
    | succ c =>
      simp only [List.get?_cons_succ] at h
      obtain ⟨pre, post, h1, h2, h3⟩ := ih (id + x.length + 1) c content h
      have hid : id + firstId (x :: rest) (c + 1) = id + x.length + 1 + firstId rest c := by
        rw [firstId_succ]; omega
      refine ⟨makeCells id x ++ separatorCell (id + x.length) :: pre, post, ?_, ?_, ?_⟩
      · simp only [build, h1, hid]
        simp
      · simp only [build, List.get?_cons_succ, h2, hid]
      · simp only [build, List.get?_cons_succ, h3, hid]

theorem build_nodup (contents : List (List DNACharacter)) (id : Nat) :
    ((build contents id).1.map Cell.id).Nodup := by
  rw [build_ids]
  exact List.nodup_range' _ _

theorem coerce_ne (ch : Char) :
    coerce ch ≠ Letter.SEPARATION_CHAR ∧ coerce ch ≠ Letter.DELETED_CHAR := by
  unfold coerce
  split_ifs <;> exact ⟨by decide, by decide⟩

theorem chromosome_letters (record : FASTARecord) (original : List Nat) :
    ∀ ch ∈ chromosome record original,
      ch.actual ≠ Letter.SEPARATION_CHAR ∧ ch.actual ≠ Letter.DELETED_CHAR := by
  intro ch hch
  unfold chromosome at hch
  rw [List.zipWith_eq_zipWith_take_min] at hch
  rw [List.mem_iff_getElem] at hch
  obtain ⟨i, hi, rfl⟩ := hch
  simp only [List.getElem_zipWith]
  exact coerce_ne _

theorem makeCells_mem_value (cs : List DNACharacter) (id : Nat) (x : Cell)
    (hx : x ∈ makeCells id cs) : x.value ∈ cs := by
  have : x.value ∈ (makeCells id cs).map Cell.value := List.mem_map_of_mem _ hx
  rwa [makeCells_values] at this

theorem separatorCell_live (id : Nat) : (separatorCell id).live = true := by
  simp [separatorCell, Cell.live]

theorem fresh_traversal (contents : List (List DNACharacter)) (c : Nat)
    (content : List DNACharacter) (hget : contents.get? c = some content)
    (hvalid : ∀ ch ∈ content, ch.actual ≠ Letter.DELETED_CHAR) (fuel : Nat)
    (hfuel : (build contents 0).1.length < fuel) :
    traverse (build contents 0).1 fuel
        ⟨GenericIterator.ForwardIterator ((build contents 0).2.1.get? c).join⟩
        ⟨GenericIterator.ForwardIterator ((build contents 0).2.2.get? c).join⟩ =
      some (chromosomeReadings contents c) ∧
    traverse (build contents 0).1 fuel
        ⟨GenericIterator.BackwardIterator
          (backward (build contents 0).1 ((build contents 0).2.2.get? c).join)⟩
        ⟨GenericIterator.BackwardIterator
          (backward (build contents 0).1 ((build contents 0).2.1.get? c).join)⟩ =
      some ((chromosomeReadings contents c).reverse.map Reading.complement) := by
  obtain ⟨pre, post, hl, hb, he⟩ := build_split contents 0 c content hget
  simp only [Nat.zero_add] at hl hb he
  have hnodup := build_nodup contents 0
  generalize (build contents 0).1 = l at hl hnodup hfuel ⊢
  rw [hb, he]
  simp only [Option.join, Option.some_bind, id]
  have hreadings : chromosomeReadings contents c =
      (makeCells (firstId contents c) content).map Cell.reading := by
    unfold chromosomeReadings
    rw [hget]
    rfl
  set idc := firstId contents c with hidc
  set mid := makeCells idc content with hmid
  set e := separatorCell (idc + content.length) with hedef
  have helive : e.live = true := separatorCell_live _
  have hmidlive : ∀ x ∈ mid, x.live = true := by
    intro x hx
    have := hvalid _ (makeCells_mem_value _ _ _ hx)
    simpa [Cell.live] using this
  have hlen : mid.length < fuel := by
    have : l.length = pre.length + mid.length + (post.length + 1) := by
      rw [hl]
      simp only [List.length_append, List.length_cons]
    omega
  have heid : e.id = idc + content.length := rfl
  have hstart : firstLive (mid ++ e :: post) = some idc := by
    cases hcontent : content with
    | nil =>
      have : mid = [] := by rw [hmid, hcontent]; rfl
      rw [this, List.nil_append, firstLive_cons_live _ _ helive, heid, hcontent]
      rfl
    | cons ch cs =>
      have : mid = ⟨idc, ch⟩ :: makeCells (idc + 1) cs := by rw [hmid, hcontent]; rfl
      have hl1 := hmidlive ⟨idc, ch⟩ (by rw [this]; exact List.mem_cons_self _ _)
      rw [this, List.cons_append, firstLive_cons_live _ _ hl1]
  have hbackE : backward l (some (idc + content.length)) =
      firstLive (mid.reverse ++ pre.reverse) := by
    show firstLive (cellsAfter l.reverse (idc + content.length)) = _
    have := cellsAfter_reverse_split (pre ++ mid) post e (hl ▸ hnodup)
    rw [← hl, heid] at this
    rw [this, List.reverse_append]
  have hbackB : backward l (some idc) = firstLive pre.reverse := by
    show firstLive (cellsAfter l.reverse idc) = _
    cases hcontent : content with
    | nil =>
      have hm : mid = [] := by rw [hmid, hcontent]; rfl
      have hl2 : l = pre ++ e :: post := by rw [hl, hm]; simp
      have := cellsAfter_reverse_split pre post e (hl2 ▸ hnodup)
      rw [← hl2, heid, hcontent] at this
      simpa using congrArg firstLive this
    | cons ch cs =>
      have hm : mid = ⟨idc, ch⟩ :: makeCells (idc + 1) cs := by rw [hmid, hcontent]; rfl
      have hl2 : l = pre ++ ⟨idc, ch⟩ :: (makeCells (idc + 1) cs ++ e :: post) := by
        rw [hl, hm]; simp
      have := cellsAfter_reverse_split pre _ ⟨idc, ch⟩ (hl2 ▸ hnodup)
      rw [← hl2] at this
      exact congrArg firstLive this
  constructor
  · have := traverse_forward l e post hnodup helive mid pre fuel hl hmidlive hlen
    rw [hstart, heid] at this
    rw [this, hreadings]
  · have := traverse_backward l pre hnodup mid.reverse (e :: post) fuel
      (by rw [List.reverse_reverse]; exact hl)
      (fun x hx => hmidlive x (List.mem_reverse.mp hx)) (by simpa using hlen)
    rw [← hbackE, ← hbackB] at this
    rw [this, hreadings]
    simp [List.map_reverse]

/-- C4. Take a freshly constructed store, built from the records `record` with the
original positions `original` (the first constructor uses the indices `0, 1, ...` of
each record), and one of its chromosomes `c`. With any bound above the size of the
buffer, the traversal from `PositiveBegin(c)` up to `PositiveEnd(c)` reads the cells of
the chromosome in order, with the letters and positions they were built from, and the
traversal from `NegativeBegin(c)` up to `NegativeEnd(c)` reads the reverse of that
list with every letter replaced by its complement: the same cells and the same
positions, in the opposite order. No cell read is a separator or a tombstone. -/
theorem reverse_traversal (record : List FASTARecord) (original : List (List Nat))
    (c : Nat) (r : FASTARecord) (o : List Nat)
    (hr : record.get? c = some r) (ho : original.get? c = some o) :
    (∀ fuel, (DNASequence.ofOriginal record original).sequence_.length < fuel →
      traverse (DNASequence.ofOriginal record original).sequence_ fuel
          ((DNASequence.ofOriginal record original).PositiveBegin c)
          ((DNASequence.ofOriginal record original).PositiveEnd c) =
        some (chromosomeReadings (List.zipWith chromosome record original) c) ∧
      traverse (DNASequence.ofOriginal record original).sequence_ fuel
          ((DNASequence.ofOriginal record original).NegativeBegin c)
          ((DNASequence.ofOriginal record original).NegativeEnd c) =
        some ((chromosomeReadings (List.zipWith chromosome record original) c).reverse.map
          Reading.complement)) ∧
    (chromosomeReadings (List.zipWith chromosome record original) c).map
        (fun x => (⟨x.letter, x.pos⟩ : DNACharacter)) = chromosome r o ∧
    (∀ x ∈ chromosomeReadings (List.zipWith chromosome record original) c,
      x.letter ≠ Letter.SEPARATION_CHAR ∧ x.letter ≠ Letter.DELETED_CHAR) := by
  have hget : (List.zipWith chromosome record original).get? c = some (chromosome r o) := by
    rw [List.get?_eq_getElem?] at hr ho ⊢
    rw [List.getElem?_zipWith, hr, ho]
  have hvalues : (chromosomeReadings (List.zipWith chromosome record original) c).map
      (fun x => (⟨x.letter, x.pos⟩ : DNACharacter)) = chromosome r o := by
    unfold chromosomeReadings
    rw [hget]
    simp only [Option.getD_some, List.map_map]
    exact (List.map_congr_left (fun x _ => rfl)).trans (makeCells_values _ _)
  refine ⟨?_, hvalues, ?_⟩
  · intro fuel hfuel
    exact fresh_traversal _ c _ hget (fun ch hch => (chromosome_letters r o ch hch).2)
      fuel hfuel
  · intro x hx
    have hmem : (⟨x.letter, x.pos⟩ : DNACharacter) ∈ chromosome r o := by
      rw [← hvalues]
      exact List.mem_map_of_mem (fun x : Reading => (⟨x.letter, x.pos⟩ : DNACharacter)) hx
    exact chromosome_letters r o _ hmem

/-- The traversals of the store of the single record `ACGT` with the positions 0, 1, 2,
3: the positive read is `A, C, G, T` at 0, 1, 2, 3 and the negative read is
`A, C, G, T` at 3, 2, 1, 0. -/
theorem reverse_traversal_witness :
    traverse acgt.sequence_ 6 (acgt.PositiveBegin 0) (acgt.PositiveEnd 0) =
      some [⟨0, Letter.A, some 0⟩, ⟨1, Letter.C, some 1⟩, ⟨2, Letter.G, some 2⟩,
        ⟨3, Letter.T, some 3⟩] ∧
    traverse acgt.sequence_ 6 (acgt.NegativeBegin 0) (acgt.NegativeEnd 0) =
      some [⟨3, Letter.A, some 3⟩, ⟨2, Letter.C, some 2⟩, ⟨1, Letter.G, some 1⟩,
        ⟨0, Letter.T, some 0⟩] :=
  (reverse_traversal [⟨"c1", ['A', 'C', 'G', 'T']⟩] [[0, 1, 2, 3]] 0
    ⟨"c1", ['A', 'C', 'G', 'T']⟩ [0, 1, 2, 3] rfl rfl).1 6 (by decide)

/-! ## Steps of a cursor and chromosomes -/

theorem cellOf_eq_some (l : List Cell) (id : Nat) (c : Cell) (h : cellOf l id = some c) :
    ∃ a b, l = a ++ c :: b ∧ c.id = id ∧ id ∉ a.map Cell.id := by
  induction l with
  | nil => simp [cellOf] at h
  | cons x l ih =>
    by_cases hx : x.id = id
    · have : cellOf (x :: l) id = some x := by simp [cellOf, List.find?_cons, hx]
      rw [this] at h
      cases h
      exact ⟨[], l, rfl, hx, by simp⟩
    · have hx' : (x.id == id) = false := by simpa using hx
      have : cellOf (x :: l) id = cellOf l id := by
        simp only [cellOf, List.find?_cons, hx']
      rw [this] at h
      obtain ⟨a, b, hl, hc, ha⟩ := ih h
      refine ⟨x :: a, b, by rw [hl]; rfl, hc, ?_⟩
      simp only [List.map_cons, List.mem_cons, not_or]
      exact ⟨fun e => hx e.symm, ha⟩

theorem cellOf_of_mem (l : List Cell) (c : Cell) (hnodup : (l.map Cell.id).Nodup)
    (hc : c ∈ l) : cellOf l c.id = some c := by
  obtain ⟨a, b, hl⟩ := List.append_of_mem hc
  rw [hl]
  exact cellOf_split a b c (nodup_split_left a b c (hl ▸ hnodup))

theorem cellOf_mem (l : List Cell) (id : Nat) (c : Cell) (h : cellOf l id = some c) :
    c ∈ l := by
  obtain ⟨a, b, hl, -, -⟩ := cellOf_eq_some l id c h
  rw [hl]
  simp

theorem dead_not_separator (x : Cell) (h : x.live = false) : x.separator = false := by
  simp only [Cell.live, bne_eq_false_iff_eq] at h
  simp [Cell.separator, h]

theorem filter_separator_dead (d : List Cell) (h : ∀ x ∈ d, x.live = false) :
    d.filter Cell.separator = [] := by
  rw [List.filter_eq_nil_iff]
  intro x hx
  simp [dead_not_separator x (h x hx)]

theorem valid_not_separator (c : Cell) (h : c.valid = true) : c.separator = false := by
  simp only [Cell.valid, Bool.and_eq_true, Bool.not_eq_true'] at h
  exact h.2

theorem valid_live (c : Cell) (h : c.valid = true) : c.live = true := by
  simp only [Cell.valid, Bool.and_eq_true] at h
  exact h.1

theorem forward_same_chromosome (l : List Cell) (hnodup : (l.map Cell.id).Nodup)
    (cx : Cell) (y : Nat) (hx : cx ∈ l) (hsep : cx.separator = false)
    (hstep : forward l (some cx.id) = some y) : chrOf l y = chrOf l cx.id := by
  obtain ⟨a, b, hl⟩ := List.append_of_mem hx
  have ha := nodup_split_left a b cx (hl ▸ hnodup)
  have hafter : cellsAfter l cx.id = b := by rw [hl]; exact cellsAfter_split a b cx ha
  simp only [forward, hafter] at hstep
  obtain ⟨d, cy, r, hb, hd, -, hid⟩ := firstLive_eq_some b y hstep
  have hl2 : l = (a ++ cx :: d) ++ cy :: r := by rw [hl, hb]; simp
  have hy := nodup_split_left (a ++ cx :: d) r cy (hl2 ▸ hnodup)
  have h1 : cellsBefore l cy.id = a ++ cx :: d := by
    rw [hl2]; exact cellsBefore_split _ _ _ hy
  have h2 : cellsBefore l cx.id = a := by rw [hl]; exact cellsBefore_split _ _ _ ha
  rw [← hid]
  unfold chrOf
  rw [h1, h2, List.filter_append, List.filter_cons, if_neg (by simp [hsep]),
    filter_separator_dead d hd, List.append_nil]

theorem backward_same_chromosome (l : List Cell) (hnodup : (l.map Cell.id).Nodup)
    (cx cy : Cell) (hx : cx ∈ l) (hy : cy ∈ l) (hsep : cy.separator = false)
    (hstep : backward l (some cx.id) = some cy.id) : chrOf l cy.id = chrOf l cx.id := by
  obtain ⟨a, b, hl⟩ := List.append_of_mem hx
  have ha := nodup_split_left a b cx (hl ▸ hnodup)
  have hafter : cellsAfter l.reverse cx.id = a.reverse := by
    rw [hl]; exact cellsAfter_reverse_split a b cx (hl ▸ hnodup)
  simp only [backward, hafter] at hstep
  obtain ⟨d, cy', r, har, hd, -, hid⟩ := firstLive_eq_some a.reverse cy.id hstep
  have ha2 : a = r.reverse ++ cy' :: d.reverse := by
    have := congrArg List.reverse har
    simpa using this
  have hl2 : l = r.reverse ++ cy' :: (d.reverse ++ cx :: b) := by rw [hl, ha2]; simp
  have hcy' : cy' ∈ l := by rw [hl2]; simp
  have hsame : cy' = cy := by
    have h1 := cellOf_of_mem l cy' hnodup hcy'
    have h2 := cellOf_of_mem l cy hnodup hy
    rw [hid, h2] at h1
    exact (Option.some.inj h1).symm
  subst hsame
  have h1 : cellsBefore l cy'.id = r.reverse := by
    rw [hl2]; exact cellsBefore_split _ _ _ (nodup_split_left _ _ cy' (hl2 ▸ hnodup))
  have h2 : cellsBefore l cx.id = a := by rw [hl]; exact cellsBefore_split _ _ _ ha
  unfold chrOf
  rw [h1, h2, ha2, List.filter_append, List.filter_cons, if_neg (by simp [hsep]),
    filter_separator_dead d.reverse (fun x hx => hd x (List.mem_reverse.mp hx)),
    List.append_nil]

theorem GetNaked_eq_some (l : List Cell) (it : StrandIterator) (c : Cell)
    (h : it.GetNaked l = some c) : it.Base = some c.id ∧ c ∈ l := by
  unfold StrandIterator.GetNaked at h
  cases hb : it.Base with
  | none => rw [hb] at h; cases h
  | some id =>
    rw [hb] at h
    simp only at h
    obtain ⟨a, b, hl, hid, -⟩ := cellOf_eq_some l id c h
    exact ⟨by rw [hid], by rw [hl]; simp⟩

theorem next_same_chromosome (l : List Cell) (hnodup : (l.map Cell.id).Nodup)
    (it : StrandIterator) (c c' : Cell) (hc : it.GetNaked l = some c)
    (hc' : (it.next l).GetNaked l = some c') (hv : c.valid = true) (hv' : c'.valid = true) :
    chrOf l c'.id = chrOf l c.id := by
  obtain ⟨hb, hmem⟩ := GetNaked_eq_some l it c hc
  obtain ⟨hb', hmem'⟩ := GetNaked_eq_some l _ c' hc'
  obtain ⟨g⟩ := it
  cases g with
  | ForwardIterator b =>
    have hb0 : b = some c.id := hb
    have hstep : forward l (some c.id) = some c'.id := by rw [← hb0]; exact hb'
    exact forward_same_chromosome l hnodup c c'.id hmem (valid_not_separator c hv) hstep
  | BackwardIterator b =>
    have hb0 : b = some c.id := hb
    have hstep : backward l (some c.id) = some c'.id := by rw [← hb0]; exact hb'
    exact backward_same_chromosome l hnodup c c' hmem hmem' (valid_not_separator c' hv') hstep

theorem sourceRange_cells (l : List Cell) (n : Nat) : ∀ (it : StrandIterator)
    (ids : List Nat), sourceRange l n it = some ids →
      ids.length = n ∧
      ∀ j, j < n → ∃ c, ((StrandIterator.next l)^[j] it).GetNaked l = some c ∧
        c.valid = true ∧ ids.get? j = some c.id := by
  induction n with
  | zero =>
    intro it ids h
    simp only [sourceRange, Option.some.injEq] at h
    subst h
    exact ⟨rfl, fun j hj => absurd hj (Nat.not_lt_zero j)⟩
  | succ n ih =>
    intro it ids h
    unfold sourceRange at h
    cases hc : it.GetNaked l with
    | none => rw [hc] at h; cases h
    | some c =>
      rw [hc] at h
      simp only at h
      by_cases hv : c.valid = true
      · rw [if_pos hv] at h
        cases hr : sourceRange l n (it.next l) with
        | none => rw [hr] at h; cases h
        | some rest =>
          rw [hr] at h
          simp only [Option.map_some', Option.some.injEq] at h
          subst h
          obtain ⟨hlen, hcells⟩ := ih (it.next l) rest hr
          refine ⟨by simp [hlen], ?_⟩
          intro j hj
          cases j with
          | zero => exact ⟨c, hc, hv, rfl⟩
          | succ j =>
            obtain ⟨c', h1, h2, h3⟩ := hcells j (by omega)
            exact ⟨c', by rwa [Function.iterate_succ_apply], h2, by simpa using h3⟩
      · rw [if_neg hv] at h; cases h

theorem sourceRange_mem (l : List Cell) (n : Nat) (it : StrandIterator) (ids : List Nat)
    (h : sourceRange l n it = some ids) (id : Nat) (hid : id ∈ ids) :
    ∃ c, c ∈ l ∧ c.id = id ∧ c.valid = true := by
  obtain ⟨hlen, hcells⟩ := sourceRange_cells l n it ids h
  obtain ⟨j, hj, hget⟩ := List.mem_iff_getElem.mp hid
  obtain ⟨c, h1, h2, h3⟩ := hcells j (by omega)
  rw [List.get?_eq_getElem?, List.getElem?_eq_getElem hj, Option.some.injEq] at h3
  exact ⟨c, (GetNaked_eq_some l _ c h1).2, by rw [← h3, hget], h2⟩

theorem sourceRange_same_chromosome (l : List Cell) (hnodup : (l.map Cell.id).Nodup)
    (n : Nat) (it : StrandIterator) (ids : List Nat) (h : sourceRange l n it = some ids)
    (first : Cell) (hfirst : it.GetNaked l = some first) :
    ∀ j, j < n → ∀ c, ((StrandIterator.next l)^[j] it).GetNaked l = some c →
      chrOf l c.id = chrOf l first.id := by
  obtain ⟨-, hcells⟩ := sourceRange_cells l n it ids h
  intro j
  induction j with
  | zero =>
    intro _ c hc
    simp only [Function.iterate_zero, id] at hc
    rw [hfirst] at hc
    cases hc
    rfl
  | succ j ih =>
    intro hj c hc
    obtain ⟨cj, h1, h2, -⟩ := hcells j (by omega)
    obtain ⟨cj', h1', h2', -⟩ := hcells (j + 1) hj
    rw [hc] at h1'
    cases h1'
    rw [Function.iterate_succ_apply'] at hc
    rw [next_same_chromosome l hnodup _ cj c h1 hc h2 h2']
    exact ih (by omega) cj h1

/-! ## `Replace`: a rejected edit -/

/-- C2. In a well-formed store, a `Replace` call whose source range crosses a
separator cell is rejected: no notification function is called and the state after
the call is the state before it, so `TotalSize()`, the letter and the original
position of every cell, and the position of every cursor are the same. -/
theorem Replace_rejects_crossing (st : DNASequence) (hwf : WellFormed st)
    (source : StrandIterator) (sourceDistance : Nat) (target : List Letter)
    (before after : Bool)
    (hcross : CrossesSeparator st.sequence_ source sourceDistance) :
    (st.Replace source sourceDistance target before after).accepted = false ∧
    (st.Replace source sourceDistance target before after).calls = [] ∧
    (st.Replace source sourceDistance target before after).state = st ∧
    (st.Replace source sourceDistance target before after).state.TotalSize = st.TotalSize ∧
    (st.Replace source sourceDistance target before after).state.sequence_ = st.sequence_ ∧
    (∀ h, (st.Replace source sourceDistance target before after).state.cursorAt h =
      st.cursorAt h) := by
  have hnone : sourceRange st.sequence_ sourceDistance source = none := by
    cases hr : sourceRange st.sequence_ sourceDistance source with
    | none => rfl
    | some ids =>
      exfalso
      obtain ⟨-, hcells⟩ := sourceRange_cells _ _ _ _ hr
      rcases hcross with ⟨j, hj, c, hc, hsep⟩ | ⟨first, last, hfirst, hlast, hne⟩
      · obtain ⟨c', h1, h2, -⟩ := hcells j hj
        rw [hc] at h1
        cases h1
        rw [valid_not_separator c h2] at hsep
        cases hsep
      · cases hn : sourceDistance with
        | zero =>
          rw [hn] at hlast
          simp only [Nat.zero_sub, Function.iterate_zero, id] at hlast
          rw [hfirst] at hlast
          cases hlast
          exact hne rfl
        | succ n =>
          rw [hn] at hlast
          simp only [Nat.add_sub_cancel] at hlast
          exact hne (sourceRange_same_chromosome _ hwf.1 _ _ _ hr first hfirst n
            (by omega) last hlast).symm
  have hres : st.Replace source sourceDistance target before after = ⟨false, st, []⟩ := by
    unfold DNASequence.Replace
    simp only [hnone]
  rw [hres]
  exact ⟨rfl, rfl, rfl, rfl, rfl, fun _ => rfl⟩

/-- A rejected edit at a concrete call: in the store of `ACGT` and `GGXA`, the range of
three cells from the `T` of the first chromosome runs over the separator into the
second chromosome. -/
theorem Replace_rejects_crossing_witness :
    CrossesSeparator twoChromosomes.sequence_
      (StrandIterator.ofBase (some 3) Direction.positive) 3 ∧
    (twoChromosomes.Replace (StrandIterator.ofBase (some 3) Direction.positive) 3
      [Letter.A] true true).accepted = false ∧
    (twoChromosomes.Replace (StrandIterator.ofBase (some 3) Direction.positive) 3
      [Letter.A] true true).calls = [] ∧
    (twoChromosomes.Replace (StrandIterator.ofBase (some 3) Direction.positive) 3
      [Letter.A] true true).state = twoChromosomes :=
  have hwf : WellFormed twoChromosomes :=
    ⟨by decide, by decide, by decide, by decide⟩
  have hcross : CrossesSeparator twoChromosomes.sequence_
      (StrandIterator.ofBase (some 3) Direction.positive) 3 :=
    Or.inl ⟨1, by decide, separatorCell 4, by decide, by decide⟩
  ⟨hcross,
    (Replace_rejects_crossing twoChromosomes hwf
      (StrandIterator.ofBase (some 3) Direction.positive) 3 [Letter.A] true true hcross).1,
    (Replace_rejects_crossing twoChromosomes hwf
      (StrandIterator.ofBase (some 3) Direction.positive) 3 [Letter.A] true true hcross).2.1,
    (Replace_rejects_crossing twoChromosomes hwf
      (StrandIterator.ofBase (some 3) Direction.positive) 3 [Letter.A] true true
      hcross).2.2.1⟩

/-! ## The splice: tombstones and inserted cells -/

theorem tombstone_ids (ids : List Nat) (l : List Cell) :
    (tombstone ids l).map Cell.id = l.map Cell.id := by
  unfold tombstone
  rw [List.map_map]
  apply List.map_congr_left
  intro c _
  simp only [Function.comp]
  split_ifs <;> rfl

theorem tombstone_cons (ids : List Nat) (c : Cell) (l : List Cell) :
    tombstone ids (c :: l) =
      (if c.id ∈ ids then tombstoneCell c.id else c) :: tombstone ids l := rfl

theorem tombstone_id_eq (ids : List Nat) (c : Cell) :
    (if c.id ∈ ids then tombstoneCell c.id else c).id = c.id := by
  split_ifs <;> rfl

theorem cellOf_tombstone (ids : List Nat) (l : List Cell) (x : Nat) :
    cellOf (tombstone ids l) x =
      (cellOf l x).map (fun c => if c.id ∈ ids then tombstoneCell c.id else c) := by
  induction l with
  | nil => rfl
  | cons c l ih =>
    rw [tombstone_cons]
    simp only [cellOf, List.find?_cons, tombstone_id_eq] at ih ⊢
    cases hc : (c.id == x) with
    | true => simp
    | false => simpa using ih

theorem filter_separator_tombstone (ids : List Nat) (l : List Cell)
    (h : ∀ c ∈ l, c.id ∈ ids → c.separator = false) :
    (tombstone ids l).filter Cell.separator = l.filter Cell.separator := by
  induction l with
  | nil => rfl
  | cons c l ih =>
    rw [tombstone_cons]
    have ih' := ih (fun x hx => h x (List.mem_cons_of_mem _ hx))
    by_cases hc : c.id ∈ ids
    · have hsep := h c (List.mem_cons_self _ _) hc
      have htomb : (tombstoneCell c.id).separator = false := rfl
      rw [if_pos hc, List.filter_cons, List.filter_cons, ih', hsep, htomb]
      rfl
    · rw [if_neg hc, List.filter_cons, List.filter_cons, ih']

theorem cellsBefore_tombstone (ids : List Nat) (l : List Cell) (x : Nat) :
    cellsBefore (tombstone ids l) x = tombstone ids (cellsBefore l x) := by
  induction l with
  | nil => rfl
  | cons c l ih =>
    rw [tombstone_cons]
    simp only [cellsBefore, tombstone_id_eq]
    by_cases hc : c.id = x
    · simp [hc, tombstone]
    · simp only [if_neg hc, tombstone_cons, ih]

theorem cellsBefore_sublist (l : List Cell) (x : Nat) : ∀ c ∈ cellsBefore l x, c ∈ l := by
  induction l with
  | nil => intro c hc; simp [cellsBefore] at hc
  | cons a l ih =>
    intro c hc
    simp only [cellsBefore] at hc
    by_cases ha : a.id = x
    · simp [ha] at hc
    · rw [if_neg ha] at hc
      rcases List.mem_cons.mp hc with rfl | hc
      · exact List.mem_cons_self _ _
      · exact List.mem_cons_of_mem _ (ih c hc)

theorem cells_split (l : List Cell) (p : Nat) : l = cellsBefore l p ++ cellsFrom l p := by
  induction l with
  | nil => rfl
  | cons c l ih =>
    by_cases hc : c.id = p
    · simp [cellsBefore, cellsFrom, hc]
    · simp only [cellsBefore, cellsFrom, if_neg hc, List.cons_append]
      exact congrArg (List.cons c) ih

theorem insertBefore_eq (l : List Cell) (p : Nat) (new : List Cell) :
    insertBefore l p new = cellsBefore l p ++ new ++ cellsFrom l p := by
  induction l with
  | nil => simp [insertBefore, cellsBefore, cellsFrom]
  | cons c l ih =>
    by_cases hc : c.id = p
    · simp [insertBefore, cellsBefore, cellsFrom, hc]
    · simp only [insertBefore, cellsBefore, cellsFrom, if_neg hc, List.cons_append]
      exact congrArg (List.cons c) (by simpa using ih)

theorem cellsFrom_ne_nil (l : List Cell) (p : Nat) (h : p ∈ l.map Cell.id) :
    cellsFrom l p ≠ [] := by
  induction l with
  | nil => simp at h
  | cons c l ih =>
    by_cases hc : c.id = p
    · simp [cellsFrom, hc]
    · simp only [cellsFrom, if_neg hc]
      apply ih
      simp only [List.map_cons, List.mem_cons] at h
      rcases h with h | h
      · exact absurd h.symm hc
      · exact h

theorem cellsBefore_not_mem (l : List Cell) (x : Nat) (h : x ∉ l.map Cell.id) :
    cellsBefore l x = l := by
  induction l with
  | nil => rfl
  | cons c l ih =>
    have hc : c.id ≠ x := by
      intro e; apply h; simp [e]
    simp only [cellsBefore, if_neg hc]
    exact congrArg (List.cons c)
      (ih (fun hm => h (by simp only [List.map_cons, List.mem_cons]; exact Or.inr hm)))

theorem cellsBefore_append_not_mem (f l : List Cell) (x : Nat) (h : x ∉ f.map Cell.id) :
    cellsBefore (f ++ l) x = f ++ cellsBefore l x := by
  induction f with
  | nil => rfl
  | cons c f ih =>
    have hc : c.id ≠ x := by
      intro e; apply h; simp [e]
    simp only [List.cons_append, cellsBefore, if_neg hc]
    exact congrArg (List.cons c)
      (ih (fun hm => h (by simp only [List.map_cons, List.mem_cons]; exact Or.inr hm)))

theorem filter_separator_cellsBefore_insertBefore (new : List Cell) (p x : Nat)
    (hx : x ∉ new.map Cell.id) (hnew : new.filter Cell.separator = []) :
    ∀ l : List Cell, (cellsBefore (insertBefore l p new) x).filter Cell.separator =
      (cellsBefore l x).filter Cell.separator := by
  intro l
  induction l with
  | nil =>
    simp only [insertBefore, cellsBefore_not_mem new x hx, hnew, cellsBefore, List.filter_nil]
  | cons c l ih =>
    by_cases hc : c.id = p
    · simp only [insertBefore, if_pos hc, cellsBefore_append_not_mem new _ x hx,
        List.filter_append, hnew, List.nil_append]
    · simp only [insertBefore, if_neg hc, cellsBefore]
      by_cases hcx : c.id = x
      · simp [hcx]
      · simp only [if_neg hcx, List.filter_cons, ih]

theorem cellOf_append (a b : List Cell) (x : Nat) :
    cellOf (a ++ b) x = (cellOf a x).orElse (fun _ => cellOf b x) := by
  unfold cellOf
  rw [List.find?_append]
  cases List.find? (fun c => c.id == x) a <;> rfl

theorem cellOf_not_mem (l : List Cell) (x : Nat) (h : x ∉ l.map Cell.id) :
    cellOf l x = none := by
  unfold cellOf
  rw [List.find?_eq_none]
  intro c hc
  simp only [beq_iff_eq]
  intro e
  exact h (e ▸ List.mem_map_of_mem Cell.id hc)

theorem cellOf_insertBefore (l new : List Cell) (p x : Nat) (hx : x ∉ new.map Cell.id) :
    cellOf (insertBefore l p new) x = cellOf l x := by
  rw [insertBefore_eq]
  conv_rhs => rw [cells_split l p]
  rw [cellOf_append, cellOf_append, cellOf_append, cellOf_not_mem new x hx]
  cases cellOf (cellsBefore l p) x <;> rfl

theorem insertBefore_nodup (l new : List Cell) (p : Nat) (hl : (l.map Cell.id).Nodup)
    (hnew : (new.map Cell.id).Nodup) (hdisj : ∀ x ∈ new.map Cell.id, x ∉ l.map Cell.id) :
    ((insertBefore l p new).map Cell.id).Nodup := by
  rw [insertBefore_eq]
  have hperm : (cellsBefore l p ++ new ++ cellsFrom l p).Perm
      (new ++ (cellsBefore l p ++ cellsFrom l p)) := by
    rw [← List.append_assoc]
    exact List.Perm.append_right _ List.perm_append_comm
  rw [(hperm.map Cell.id).nodup_iff, ← cells_split, List.map_append]
  exact List.nodup_append.mpr ⟨hnew, hl, fun {a} h1 h2 => hdisj a h1 h2⟩

theorem insertBefore_filter_separator (l new : List Cell) (p : Nat)
    (hnew : new.filter Cell.separator = []) :
    (insertBefore l p new).filter Cell.separator = l.filter Cell.separator := by
  rw [insertBefore_eq]
  conv_rhs => rw [cells_split l p]
  simp only [List.filter_append, hnew, List.append_nil]

theorem insertBefore_getLast (l new : List Cell) (p : Nat) (h : p ∈ l.map Cell.id) :
    (insertBefore l p new).getLast? = l.getLast? := by
  rw [insertBefore_eq]
  conv_rhs => rw [cells_split l p]
  have hne := cellsFrom_ne_nil l p h
  rw [List.getLast?_append_of_ne_nil _ hne, List.getLast?_append_of_ne_nil _ hne]

theorem insertBefore_mem_ids (l new : List Cell) (p : Nat) (x : Nat)
    (h : x ∈ (insertBefore l p new).map Cell.id) :
    x ∈ l.map Cell.id ∨ x ∈ new.map Cell.id := by
  rw [insertBefore_eq] at h
  have hl : x ∈ l.map Cell.id ↔
      x ∈ (cellsBefore l p).map Cell.id ∨ x ∈ (cellsFrom l p).map Cell.id := by
    conv_lhs => rw [cells_split l p]
    simp only [List.map_append, List.mem_append]
  simp only [List.map_append, List.mem_append] at h
  rcases h with (h | h) | h
  · exact Or.inl (hl.mpr (Or.inl h))
  · exact Or.inr h
  · exact Or.inl (hl.mpr (Or.inr h))

theorem makeCells_filter_separator (letters : List Letter) (id : Nat)
    (h : Letter.SEPARATION_CHAR ∉ letters) :
    (makeCells id (letters.map (fun a => (⟨a, DELETED_POS⟩ : DNACharacter)))).filter
      Cell.separator = [] := by
  rw [List.filter_eq_nil_iff]
  intro c hc
  have := makeCells_mem_value _ _ _ hc
  simp only [List.mem_map] at this
  obtain ⟨a, ha, hca⟩ := this
  simp only [Cell.separator, ← hca, beq_iff_eq]
  intro e
  exact h (e ▸ ha)

theorem storedLetters_no_separator (target : List Letter) (dir : Direction)
    (h : Letter.SEPARATION_CHAR ∉ target) :
    Letter.SEPARATION_CHAR ∉ storedLetters target dir := by
  cases dir with
  | positive => exact h
  | negative =>
    simp only [storedLetters, List.mem_reverse, List.mem_map, not_exists, not_and]
    intro a ha e
    have : a = Letter.SEPARATION_CHAR := by
      cases a <;> simp [Translate] at e ⊢
    exact h (this ▸ ha)

/-! ## `Replace`: an accepted edit -/

theorem Replace_cases (st : DNASequence) (source : StrandIterator) (n : Nat)
    (target : List Letter) (before after : Bool) :
    st.Replace source n target before after = ⟨false, st, []⟩ ∨
    ∃ ids point, sourceRange st.sequence_ n source = some ids ∧
      Letter.SEPARATION_CHAR ∉ target ∧
      point ∈ st.sequence_ ∧
      (insertionPoint st.sequence_ source ids).bind (cellOf st.sequence_) = some point ∧
      (st.Replace source n target before after).accepted = true ∧
      (st.Replace source n target before after).state.sequence_ =
        insertBefore (tombstone ids st.sequence_) point.id
          (freshCells st.nextId target source.GetDirection) ∧
      (st.Replace source n target before after).state.posEnd_ = st.posEnd_ ∧
      (st.Replace source n target before after).state.cursors =
        relocate st ids
          (firstLiveFrom
            (insertBefore (tombstone ids st.sequence_) point.id
              (freshCells st.nextId target source.GetDirection))
            (regionStart (freshCells st.nextId target source.GetDirection) point.id)) ∧
      (st.Replace source n target before after).state.nextId =
        st.nextId + (freshCells st.nextId target source.GetDirection).length := by
  cases hr : sourceRange st.sequence_ n source with
  | none =>
    left
    unfold DNASequence.Replace
    simp only [hr]
  | some ids =>
    by_cases ht : target.contains Letter.SEPARATION_CHAR = true
    · left
      unfold DNASequence.Replace
      simp only [hr, ht, if_true]
    · cases hp : (insertionPoint st.sequence_ source ids).bind (cellOf st.sequence_) with
      | none =>
        left
        unfold DNASequence.Replace
        simp only [hr, ht, hp, if_false]
        simp
      | some point =>
        by_cases hl : (!point.live) = true
        · left
          unfold DNASequence.Replace
          simp only [hr, ht, hp, hl, if_true, if_false]
          simp
        · right
          have hmem : point ∈ st.sequence_ := by
            cases hi : insertionPoint st.sequence_ source ids with
            | none => rw [hi] at hp; cases hp
            | some pid =>
              rw [hi] at hp
              exact cellOf_mem _ pid _ hp
          have hnot : Letter.SEPARATION_CHAR ∉ target := by
            intro hmemT
            apply ht
            simpa using hmemT
          refine ⟨ids, point, rfl, hnot, hmem, hp, ?_, ?_, ?_, ?_, ?_⟩ <;>
          · unfold DNASequence.Replace
            simp only [hr, ht, hp, hl, if_false]
            simp

theorem Replace_rejected (st : DNASequence) (source : StrandIterator) (n : Nat)
    (target : List Letter) (before after : Bool)
    (h : (st.Replace source n target before after).accepted = false) :
    st.Replace source n target before after = ⟨false, st, []⟩ := by
  rcases Replace_cases st source n target before after with
    h1 | ⟨_, _, _, _, _, _, h2, _⟩
  · exact h1
  · rw [h2] at h; cases h

theorem Replace_accepted (st : DNASequence) (source : StrandIterator) (n : Nat)
    (target : List Letter) (before after : Bool)
    (h : (st.Replace source n target before after).accepted = true) :
    ∃ ids point, sourceRange st.sequence_ n source = some ids ∧
      Letter.SEPARATION_CHAR ∉ target ∧
      point ∈ st.sequence_ ∧
      (insertionPoint st.sequence_ source ids).bind (cellOf st.sequence_) = some point ∧
      (st.Replace source n target before after).state.sequence_ =
        insertBefore (tombstone ids st.sequence_) point.id
          (freshCells st.nextId target source.GetDirection) ∧
      (st.Replace source n target before after).state.posEnd_ = st.posEnd_ ∧
      (st.Replace source n target before after).state.cursors =
        relocate st ids
          (firstLiveFrom
            (insertBefore (tombstone ids st.sequence_) point.id
              (freshCells st.nextId target source.GetDirection))
            (regionStart (freshCells st.nextId target source.GetDirection) point.id)) ∧
      (st.Replace source n target before after).state.nextId =
        st.nextId + (freshCells st.nextId target source.GetDirection).length := by
  rcases Replace_cases st source n target before after with
    h1 | ⟨ids, point, h2, h3, h4, hp, _, h5, h6, h7, h8⟩
  · rw [h1] at h; cases h
  · exact ⟨ids, point, h2, h3, h4, hp, h5, h6, h7, h8⟩

theorem freshCells_ids (id : Nat) (target : List Letter) (dir : Direction) :
    (freshCells id target dir).map Cell.id =
      List.range' id (freshCells id target dir).length := by
  unfold freshCells
  rw [makeCells_ids, makeCells_length]

theorem freshCells_not_mem (id x : Nat) (target : List Letter) (dir : Direction)
    (hx : x < id) : x ∉ (freshCells id target dir).map Cell.id := by
  rw [freshCells_ids, List.mem_range'_1]
  omega

theorem freshCells_filter_separator (id : Nat) (target : List Letter) (dir : Direction)
    (h : Letter.SEPARATION_CHAR ∉ target) :
    (freshCells id target dir).filter Cell.separator = [] :=
  makeCells_filter_separator _ id (storedLetters_no_separator target dir h)

theorem range_not_separator (st : DNASequence) (hwf : WellFormed st) (n : Nat)
    (source : StrandIterator) (ids : List Nat)
    (hr : sourceRange st.sequence_ n source = some ids) :
    ∀ c ∈ st.sequence_, c.id ∈ ids → c.separator = false := by
  intro c hc hid
  obtain ⟨c', hc', hid', hv⟩ := sourceRange_mem _ _ _ _ hr c.id hid
  have h1 := cellOf_of_mem _ c hwf.1 hc
  have h2 := cellOf_of_mem _ c' hwf.1 hc'
  rw [hid', h1] at h2
  cases h2
  exact valid_not_separator c hv

theorem WellFormed_Replace (st : DNASequence) (hwf : WellFormed st)
    (source : StrandIterator) (n : Nat) (target : List Letter) (before after : Bool) :
    WellFormed (st.Replace source n target before after).state := by
  cases hacc : (st.Replace source n target before after).accepted with
  | false =>
    rw [Replace_rejected st source n target before after hacc]
    exact hwf
  | true =>
    obtain ⟨ids, point, hr, ht, hpoint, -, hseq, hpe, -, hnext⟩ :=
      Replace_accepted st source n target before after hacc
    have hnosep := range_not_separator st hwf n source ids hr
    have hfresh := freshCells_filter_separator st.nextId target source.GetDirection ht
    have hpid : point.id ∈ (tombstone ids st.sequence_).map Cell.id := by
      rw [tombstone_ids]
      exact List.mem_map_of_mem Cell.id hpoint
    refine ⟨?_, ?_, ?_, ?_⟩
    · rw [hseq]
      apply insertBefore_nodup
      · rw [tombstone_ids]; exact hwf.1
      · rw [freshCells_ids]; exact List.nodup_range' _ _
      · intro x hx hx'
        rw [tombstone_ids] at hx'
        obtain ⟨c, hc, rfl⟩ := List.mem_map.mp hx'
        exact freshCells_not_mem st.nextId c.id target _ (hwf.2.1 c hc) hx
    · intro c hc
      rw [hseq] at hc
      rw [hnext]
      rcases insertBefore_mem_ids _ _ _ c.id (List.mem_map_of_mem Cell.id hc) with h | h
      · rw [tombstone_ids] at h
        obtain ⟨c0, hc0, he⟩ := List.mem_map.mp h
        have := hwf.2.1 c0 hc0
        omega
      · rw [freshCells_ids, List.mem_range'_1] at h
        exact h.2
    · rw [hpe, hseq, insertBefore_filter_separator _ _ _ hfresh,
        filter_separator_tombstone ids _ hnosep]
      exact hwf.2.2.1
    · intro c hc
      rw [hseq, insertBefore_getLast _ _ _ hpid] at hc
      unfold tombstone at hc
      rw [List.getLast?_map] at hc
      cases hlast : st.sequence_.getLast? with
      | none => rw [hlast] at hc; cases hc
      | some s =>
        rw [hlast] at hc
        simp only [Option.map_some', Option.some.injEq] at hc
        have hs := hwf.2.2.2 s hlast
        have hsmem : s ∈ st.sequence_ := List.mem_of_getLast?_eq_some hlast
        by_cases hsid : s.id ∈ ids
        · rw [hnosep s hsmem hsid] at hs; cases hs
        · rw [if_neg hsid] at hc
          rw [← hc]; exact hs

/-! ## The invariant holds at construction -/

theorem makeCells_no_separator (content : List DNACharacter) (id : Nat)
    (h : ∀ ch ∈ content, ch.actual ≠ Letter.SEPARATION_CHAR) :
    (makeCells id content).filter Cell.separator = [] := by
  rw [List.filter_eq_nil_iff]
  intro c hc
  have := h _ (makeCells_mem_value _ _ _ hc)
  simpa [Cell.separator] using this

theorem build_posEnd (contents : List (List DNACharacter)) :
    ∀ id : Nat, (∀ content ∈ contents, ∀ ch ∈ content, ch.actual ≠ Letter.SEPARATION_CHAR) →
      (build contents id).2.2 =
        ((build contents id).1.filter Cell.separator).map (fun c => some c.id) := by
  induction contents with
  | nil => intro id _; rfl
  | cons x rest ih =>
    intro id h
    have hx := makeCells_no_separator x id (h x (List.mem_cons_self _ _))
    have hrest := ih (id + x.length + 1) (fun c hc => h c (List.mem_cons_of_mem _ hc))
    have hsep : (separatorCell (id + x.length)).separator = true := rfl
    simp only [build, List.filter_append, hx, List.nil_append, List.filter_cons, hsep,
      if_true, List.map_cons, hrest]
    rfl

theorem build_getLast (contents : List (List DNACharacter)) :
    ∀ (id : Nat) (c : Cell), (build contents id).1.getLast? = some c →
      c.separator = true := by
  induction contents with
  | nil => intro id c h; simp [build] at h
  | cons x rest ih =>
    intro id c h
    simp only [build] at h
    rw [List.getLast?_append_of_ne_nil _ (by simp)] at h
    cases hr : (build rest (id + x.length + 1)).1 with
    | nil =>
      rw [hr] at h
      simp only [List.getLast?_singleton, Option.some.injEq] at h
      rw [← h]; rfl
    | cons y ys =>
      rw [hr, List.getLast?_cons_cons] at h
      exact ih (id + x.length + 1) c (by rw [hr]; exact h)

theorem WellFormed_ofOriginal (record : List FASTARecord) (original : List (List Nat)) :
    WellFormed (DNASequence.ofOriginal record original) := by
  have hids := build_ids (List.zipWith chromosome record original) 0
  refine ⟨build_nodup _ 0, ?_, ?_, build_getLast _ 0⟩
  · intro c hc
    have : c.id ∈ (build (List.zipWith chromosome record original) 0).1.map Cell.id :=
      List.mem_map_of_mem Cell.id hc
    rw [hids, List.mem_range'_1] at this
    simpa [DNASequence.ofOriginal] using this.2
  · apply build_posEnd
    intro content hcontent ch hch
    rw [List.zipWith_eq_zipWith_take_min, List.mem_iff_getElem] at hcontent
    obtain ⟨i, hi, rfl⟩ := hcontent
    simp only [List.getElem_zipWith] at hch
    exact (chromosome_letters _ _ ch hch).1

theorem WellFormed_SubscribeIterator (st : DNASequence) (hwf : WellFormed st)
    (it : SequencePosIterator) : WellFormed (st.SubscribeIterator it).1 :=
  hwf

/-! ## `Replace`: relocation of the subscribers -/

theorem separator_live (c : Cell) (h : c.separator = true) : c.live = true := by
  simp only [Cell.separator, beq_iff_eq] at h
  simp [Cell.live, h]

theorem separator_index (l : List Cell) (a b : List Cell) (c : Cell)
    (hl : l = a ++ c :: b) (hc : c.separator = true) :
    ((l.filter Cell.separator).map (fun x => some x.id)).get?
      (a.filter Cell.separator).length = some (some c.id) := by
  rw [hl, List.filter_append, List.filter_cons, if_pos hc, List.map_append, List.map_cons,
    List.get?_eq_getElem?]
  have : (List.filter Cell.separator a).length =
      (List.map (fun x => some x.id) (List.filter Cell.separator a)).length := by simp
  rw [this, List.getElem?_append_right (Nat.le_refl _)]
  simp

theorem filter_live_dead (d : List Cell) (h : ∀ x ∈ d, x.live = false) :
    d.filter Cell.live = [] := by
  rw [List.filter_eq_nil_iff]
  intro x hx
  simp [h x hx]

theorem sourceRange_succ (l : List Cell) (n : Nat) (it : StrandIterator) (ids : List Nat)
    (h : sourceRange l (n + 1) it = some ids) :
    ∃ c rest, it.GetNaked l = some c ∧ c.valid = true ∧
      sourceRange l n (it.next l) = some rest ∧ ids = c.id :: rest := by
  unfold sourceRange at h
  cases hc : it.GetNaked l with
  | none => rw [hc] at h; cases h
  | some c =>
    rw [hc] at h
    simp only at h
    by_cases hv : c.valid = true
    · rw [if_pos hv] at h
      cases hr : sourceRange l n (it.next l) with
      | none => rw [hr] at h; cases h
      | some rest =>
        rw [hr] at h
        simp only [Option.map_some', Option.some.injEq] at h
        exact ⟨c, rest, rfl, hv, rfl, h.symm⟩
    · rw [if_neg hv] at h; cases h

/-- A positive source range is a contiguous region of the buffer: it starts at the
source cell, its live cells are the cells of the range in order, and they are valid. -/
theorem forward_region (l : List Cell) (hnodup : (l.map Cell.id).Nodup) (n : Nat) :
    ∀ (a : List Cell) (c : Cell) (rest : List Cell) (ids : List Nat),
      l = a ++ c :: rest →
      sourceRange l (n + 1) ⟨GenericIterator.ForwardIterator (some c.id)⟩ = some ids →
      ∃ region b, c :: rest = region ++ b ∧ region.head? = some c ∧
        (region.filter Cell.live).map Cell.id = ids ∧
        (∀ x ∈ region, x.live = true → x.valid = true) := by
  induction n with
  | zero =>
    intro a c rest ids hl h
    obtain ⟨c0, rest0, hc0, hv, hr, hids⟩ := sourceRange_succ l 0 _ ids h
    have hc : StrandIterator.GetNaked l ⟨GenericIterator.ForwardIterator (some c.id)⟩ =
        some c := by
      show cellOf l c.id = some c
      rw [hl]; exact cellOf_split a rest c (nodup_split_left a rest c (hl ▸ hnodup))
    rw [hc] at hc0
    cases hc0
    simp only [sourceRange, Option.some.injEq] at hr
    subst hr
    refine ⟨[c], rest, rfl, rfl, ?_, ?_⟩
    · rw [hids]; simp [valid_live c hv]
    · intro x hx _
      simp only [List.mem_singleton] at hx
      rw [hx]; exact hv
  | succ n ih =>
    intro a c rest ids hl h
    obtain ⟨c0, rest0, hc0, hv, hr, hids⟩ := sourceRange_succ l (n + 1) _ ids h
    have ha := nodup_split_left a rest c (hl ▸ hnodup)
    have hc : StrandIterator.GetNaked l ⟨GenericIterator.ForwardIterator (some c.id)⟩ =
        some c := by
      show cellOf l c.id = some c
      rw [hl]; exact cellOf_split a rest c ha
    rw [hc] at hc0
    cases hc0
    have hnext : StrandIterator.next l ⟨GenericIterator.ForwardIterator (some c.id)⟩ =
        ⟨GenericIterator.ForwardIterator (firstLive rest)⟩ := by
      show (⟨GenericIterator.ForwardIterator (firstLive (cellsAfter l c.id))⟩ :
        StrandIterator) = _
      rw [hl, cellsAfter_split a rest c ha]
    rw [hnext] at hr
    obtain ⟨c1, -, hc1, -, -, -⟩ := sourceRange_succ l n _ rest0 hr
    have hbase := (GetNaked_eq_some l _ c1 hc1).1
    have hfl : firstLive rest = some c1.id := hbase
    obtain ⟨d, cy, r, hrest, hd, -, hcy⟩ := firstLive_eq_some rest c1.id hfl
    rw [hfl, ← hcy] at hr
    obtain ⟨region', b, hsplit, hhead, hfilter, hvalid⟩ :=
      ih (a ++ c :: d) cy r rest0 (by rw [hl, hrest]; simp) hr
    refine ⟨c :: (d ++ region'), b, ?_, rfl, ?_, ?_⟩
    · rw [hrest, hsplit]; simp
    · rw [List.filter_cons, if_pos (valid_live c hv), List.filter_append,
        filter_live_dead d hd, List.nil_append, List.map_cons, hfilter, hids]
    · intro x hx hxl
      rcases List.mem_cons.mp hx with rfl | hx
      · exact hv
      · rcases List.mem_append.mp hx with hx | hx
        · rw [hd x hx] at hxl; cases hxl
        · exact hvalid x hx hxl

/-- A negative source range is a contiguous region of the buffer: it ends at the source
cell, its live cells are the cells of the range in reverse order, and they are
valid. -/
theorem backward_region (l : List Cell) (hnodup : (l.map Cell.id).Nodup) (n : Nat) :
    ∀ (pre : List Cell) (c : Cell) (post : List Cell) (ids : List Nat),
      l = pre ++ c :: post →
      sourceRange l (n + 1) ⟨GenericIterator.BackwardIterator (some c.id)⟩ = some ids →
      ∃ a region, pre ++ [c] = a ++ region ∧
        (∃ r0 rs, region = r0 :: rs ∧ r0.live = true) ∧
        (region.filter Cell.live).map Cell.id = ids.reverse ∧
        (∀ x ∈ region, x.live = true → x.valid = true) := by
  induction n with
  | zero =>
    intro pre c post ids hl h
    obtain ⟨c0, rest0, hc0, hv, hr, hids⟩ := sourceRange_succ l 0 _ ids h
    have hc : StrandIterator.GetNaked l ⟨GenericIterator.BackwardIterator (some c.id)⟩ =
        some c := by
      show cellOf l c.id = some c
      rw [hl]; exact cellOf_split pre post c (nodup_split_left pre post c (hl ▸ hnodup))
    rw [hc] at hc0
    cases hc0
    simp only [sourceRange, Option.some.injEq] at hr
    subst hr
    refine ⟨pre, [c], rfl, ⟨c, [], rfl, valid_live c hv⟩, ?_, ?_⟩
    · rw [hids]; simp [valid_live c hv]
    · intro x hx _
      simp only [List.mem_singleton] at hx
      rw [hx]; exact hv
  | succ n ih =>
    intro pre c post ids hl h
    obtain ⟨c0, rest0, hc0, hv, hr, hids⟩ := sourceRange_succ l (n + 1) _ ids h
    have hc : StrandIterator.GetNaked l ⟨GenericIterator.BackwardIterator (some c.id)⟩ =
        some c := by
      show cellOf l c.id = some c
      rw [hl]; exact cellOf_split pre post c (nodup_split_left pre post c (hl ▸ hnodup))
    rw [hc] at hc0
    cases hc0
    have hnext : StrandIterator.next l ⟨GenericIterator.BackwardIterator (some c.id)⟩ =
        ⟨GenericIterator.BackwardIterator (firstLive pre.reverse)⟩ := by
      show (⟨GenericIterator.BackwardIterator (firstLive (cellsAfter l.reverse c.id))⟩ :
        StrandIterator) = _
      have := cellsAfter_reverse_split pre post c (hl ▸ hnodup)
      rw [← hl] at this
      rw [this]
    rw [hnext] at hr
    obtain ⟨c1, -, hc1, -, -, -⟩ := sourceRange_succ l n _ rest0 hr
    have hfl : firstLive pre.reverse = some c1.id := (GetNaked_eq_some l _ c1 hc1).1
    obtain ⟨d, cy, r, hpre, hd, -, hcy⟩ := firstLive_eq_some pre.reverse c1.id hfl
    have hpre' : pre = r.reverse ++ cy :: d.reverse := by
      have := congrArg List.reverse hpre
      simpa using this
    rw [hfl, ← hcy] at hr
    obtain ⟨a, region', hsplit, ⟨r0, rs, hreg, hr0⟩, hfilter, hvalid⟩ :=
      ih r.reverse cy (d.reverse ++ c :: post) rest0 (by rw [hl, hpre']; simp) hr
    refine ⟨a, region' ++ (d.reverse ++ [c]), ?_, ⟨r0, rs ++ (d.reverse ++ [c]), ?_, hr0⟩,
      ?_, ?_⟩
    · rw [← List.append_assoc, ← hsplit, hpre']; simp
    · rw [hreg]; rfl
    · have hdr : ∀ x ∈ d.reverse, x.live = false := fun x hx => hd x (List.mem_reverse.mp hx)
      rw [List.filter_append, List.filter_append, filter_live_dead _ hdr, List.nil_append,
        List.map_append, hfilter, hids]
      simp [valid_live c hv]
    · intro x hx hxl
      rcases List.mem_append.mp hx with hx | hx
      · exact hvalid x hx hxl
      · rcases List.mem_append.mp hx with hx | hx
        · rw [hd x (List.mem_reverse.mp hx)] at hxl; cases hxl
        · simp only [List.mem_singleton] at hx
          rw [hx]; exact hv

/-- A non-empty source range is a contiguous region of the buffer that starts at a cell
of the range; its live cells are the cells of the range in buffer order, and they are
valid. -/
theorem sourceRange_region (l : List Cell) (hnodup : (l.map Cell.id).Nodup) (n : Nat)
    (it : StrandIterator) (ids : List Nat) (h : sourceRange l n it = some ids)
    (hne : ids ≠ []) :
    ∃ a r0 rs b, l = a ++ (r0 :: rs) ++ b ∧ r0.live = true ∧
      ((r0 :: rs).filter Cell.live).map Cell.id = orderedIds ids it.GetDirection ∧
      (∀ x ∈ r0 :: rs, x.live = true → x.valid = true) := by
  cases n with
  | zero =>
    simp only [sourceRange, Option.some.injEq] at h
    exact absurd h.symm hne
  | succ n =>
    obtain ⟨c, rest0, hc, hv, -, -⟩ := sourceRange_succ l n it ids h
    obtain ⟨hbase, hmem⟩ := GetNaked_eq_some l it c hc
    obtain ⟨a, rest, hl⟩ := List.append_of_mem hmem
    obtain ⟨g⟩ := it
    cases g with
    | ForwardIterator b0 =>
      have hb0 : b0 = some c.id := hbase
      subst hb0
      obtain ⟨region, b, hsplit, hhead, hfilter, hvalid⟩ :=
        forward_region l hnodup n a c rest ids hl h
      cases region with
      | nil => cases hhead
      | cons r0 rs =>
        simp only [List.head?_cons, Option.some.injEq] at hhead
        exact ⟨a, r0, rs, b, by rw [hl, hsplit]; simp, by rw [hhead]; exact valid_live c hv,
          hfilter, hvalid⟩
    | BackwardIterator b0 =>
      have hb0 : b0 = some c.id := hbase
      subst hb0
      obtain ⟨a', region, hsplit, ⟨r0, rs, hreg, hr0⟩, hfilter, hvalid⟩ :=
        backward_region l hnodup n a c rest ids hl h
      subst hreg
      refine ⟨a', r0, rs, rest, ?_, hr0, hfilter, hvalid⟩
      rw [hl, ← hsplit]; simp

theorem tombstone_append (ids : List Nat) (x y : List Cell) :
    tombstone ids (x ++ y) = tombstone ids x ++ tombstone ids y := by
  simp [tombstone]

theorem tombstone_of_disjoint (ids : List Nat) (a : List Cell)
    (h : ∀ c ∈ a, c.id ∉ ids) : tombstone ids a = a := by
  induction a with
  | nil => rfl
  | cons c a ih =>
    rw [tombstone_cons, if_neg (h c (List.mem_cons_self _ _)),
      ih (fun x hx => h x (List.mem_cons_of_mem _ hx))]

theorem tombstone_region_dead (ids : List Nat) (region : List Cell)
    (h : ∀ x ∈ region, x.live = true → x.id ∈ ids) :
    ∀ x ∈ tombstone ids region, x.live = false := by
  intro x hx
  simp only [tombstone, List.mem_map] at hx
  obtain ⟨c, hc, rfl⟩ := hx
  by_cases hid : c.id ∈ ids
  · rw [if_pos hid]; rfl
  · rw [if_neg hid]
    cases hl : c.live with
    | false => rfl
    | true => exact absurd (h c hc hl) hid

theorem insertBefore_split (a r new : List Cell) (c : Cell) (h : c.id ∉ a.map Cell.id) :
    insertBefore (a ++ c :: r) c.id new = a ++ new ++ c :: r := by
  induction a with
  | nil => simp [insertBefore]
  | cons x a ih =>
    have hx : x.id ≠ c.id := by
      intro e; apply h; simp [e]
    have ha : c.id ∉ a.map Cell.id := by
      intro e; apply h; simp only [List.map_cons, List.mem_cons]; exact Or.inr e
    simp only [List.cons_append, insertBefore, if_neg hx]
    exact congrArg (List.cons x) (by simpa using ih ha)

theorem cellsFrom_split (a r : List Cell) (c : Cell) (h : c.id ∉ a.map Cell.id) :
    cellsFrom (a ++ c :: r) c.id = c :: r := by
  induction a with
  | nil => simp [cellsFrom]
  | cons x a ih =>
    have hx : x.id ≠ c.id := by
      intro e; apply h; simp [e]
    have ha : c.id ∉ a.map Cell.id := by
      intro e; apply h; simp only [List.map_cons, List.mem_cons]; exact Or.inr e
    simp only [List.cons_append, cellsFrom, if_neg hx]
    exact ih ha

theorem firstLive_append (x y : List Cell) :
    firstLive (x ++ y) =
      match firstLive x with
      | some i => some i
      | none => firstLive y := by
  induction x with
  | nil => rfl
  | cons c x ih =>
    by_cases hc : c.live = true
    · rw [List.cons_append, firstLive_cons_live _ _ hc, firstLive_cons_live _ _ hc]
    · have hc' : c.live = false := by simpa using hc
      rw [List.cons_append, firstLive_cons_dead _ _ hc', firstLive_cons_dead _ _ hc']
      exact ih

theorem firstLive_skip_dead (f m b : List Cell) (hm : ∀ x ∈ m, x.live = false) :
    firstLive (f ++ m ++ b) = firstLive (f ++ b) := by
  rw [List.append_assoc, firstLive_append f (m ++ b), firstLive_append f b,
    firstLive_append_dead m b hm]

theorem storedLetters_no_deleted (target : List Letter) (dir : Direction)
    (h : Letter.DELETED_CHAR ∉ target) :
    Letter.DELETED_CHAR ∉ storedLetters target dir := by
  cases dir with
  | positive => exact h
  | negative =>
    simp only [storedLetters, List.mem_reverse, List.mem_map, not_exists, not_and]
    intro a ha e
    have : a = Letter.DELETED_CHAR := by
      cases a <;> simp [Translate] at e ⊢
    exact h (this ▸ ha)

theorem storedLetters_ne_nil (target : List Letter) (dir : Direction) (h : target ≠ []) :
    storedLetters target dir ≠ [] := by
  cases dir with
  | positive => exact h
  | negative => simpa [storedLetters] using h

theorem cursorAt_relocate (st : DNASequence) (ids : List Nat)
    (landing : SequencePosIterator) (h id : Nat)
    (hcur : st.cursorAt h = some id) (hsub : h ∈ st.iteratorStore_) (hin : id ∈ ids) :
    ((relocate st ids landing).get? h).join = landing := by
  have hlt : h < st.cursors.length := by
    by_contra hge
    have : st.cursors.get? h = none := List.get?_eq_none.mpr (by omega)
    unfold DNASequence.cursorAt at hcur
    rw [this] at hcur
    cases hcur
  unfold relocate
  rw [List.get?_eq_getElem?, List.getElem?_map, List.getElem?_range hlt]
  simp only [Option.map_some', hcur, hsub, hin, and_self, if_true]
  rfl

/-- C1. Take a well-formed store, an accepted `Replace` call whose source range is
`ids` (a range of valid cells, hence inside one chromosome), and a subscribed handle
`h` whose cursor is at a cell `id` of that range. The range is a contiguous region of
the buffer, between a part `a` before it and a part `b` after it. After the call the
buffer is `a`, then the inserted cells, then the region with all its cells
tombstoned, then `b`. The cursor of `h` is at the first still-live cell at or after
the spliced-out region: the first live inserted cell when there is one, otherwise the
first live cell of `b`. This cell does not depend on `h` or on the direction of the
source; when the target is not empty it is the first inserted cell, whose identity is
`nextId`. The cell is live, and it is either a valid cell of the chromosome the removed
cell was in or the end anchor of that chromosome. All cells of the range were in that
one chromosome. -/
theorem Replace_relocates (st : DNASequence) (hwf : WellFormed st)
    (source : StrandIterator) (sourceDistance : Nat) (target : List Letter)
    (before after : Bool) (ids : List Nat) (h id : Nat)
    (hrange : sourceRange st.sequence_ sourceDistance source = some ids)
    (hacc : (st.Replace source sourceDistance target before after).accepted = true)
    (hsub : h ∈ st.iteratorStore_) (hcur : st.cursorAt h = some id) (hin : id ∈ ids) :
    (∀ first, source.GetNaked st.sequence_ = some first →
      chrOf st.sequence_ id = chrOf st.sequence_ first.id) ∧
    (target ≠ [] → Letter.DELETED_CHAR ∉ target →
      (st.Replace source sourceDistance target before after).state.cursorAt h =
        some st.nextId) ∧
    ∃ a region b c',
      st.sequence_ = a ++ region ++ b ∧
      (region.filter Cell.live).map Cell.id = orderedIds ids source.GetDirection ∧
      (st.Replace source sourceDistance target before after).state.sequence_ =
        a ++ freshCells st.nextId target source.GetDirection ++ tombstone ids region ++ b ∧
      (∀ x ∈ tombstone ids region, x.live = false) ∧
      (st.Replace source sourceDistance target before after).state.cursorAt h =
        firstLive (freshCells st.nextId target source.GetDirection ++ b) ∧
      (st.Replace source sourceDistance target before after).state.cursorAt h =
        some c'.id ∧
      c' ∈ (st.Replace source sourceDistance target before after).state.sequence_ ∧
      c'.live = true ∧
      ((c'.valid = true ∧
          chrOf (st.Replace source sourceDistance target before after).state.sequence_ c'.id =
            chrOf st.sequence_ id) ∨
        (c'.separator = true ∧
          ((st.Replace source sourceDistance target before after).state.PositiveEnd
            (chrOf st.sequence_ id)).Base = some c'.id)) := by
  constructor
  · intro first hfirst
    obtain ⟨hlen, hcells⟩ := sourceRange_cells _ _ _ _ hrange
    obtain ⟨j, hj, hget⟩ := List.mem_iff_getElem.mp hin
    obtain ⟨c, h1, -, h3⟩ := hcells j (by omega)
    rw [List.get?_eq_getElem?, List.getElem?_eq_getElem hj, Option.some.injEq] at h3
    have := sourceRange_same_chromosome _ hwf.1 _ _ _ hrange first hfirst j (by omega) c h1
    rw [← hget, h3]
    exact this
  have hwf' := WellFormed_Replace st hwf source sourceDistance target before after
  obtain ⟨ids', point, hr, ht, hpoint, hp, hseq, hpe, hcurs, hnext⟩ :=
    Replace_accepted st source sourceDistance target before after hacc
  rw [hrange] at hr
  cases hr
  generalize (st.Replace source sourceDistance target before after).state = st' at *
  generalize hfresh : freshCells st.nextId target source.GetDirection = fresh at *
  have hfreshsep : fresh.filter Cell.separator = [] := by
    rw [← hfresh]; exact freshCells_filter_separator _ _ _ ht
  have hfreshids : ∀ f ∈ fresh, st.nextId ≤ f.id := by
    intro f hf
    have : f.id ∈ fresh.map Cell.id := List.mem_map_of_mem Cell.id hf
    rw [← hfresh, freshCells_ids, List.mem_range'_1] at this
    exact this.1
  -- the range is a contiguous region of the buffer
  obtain ⟨a, r0, rs, b, hl, hr0, hfilter, hvalid⟩ :=
    sourceRange_region _ hwf.1 _ _ _ hrange (List.ne_nil_of_mem hin)
  have hnodup : ((a ++ (r0 :: rs) ++ b).map Cell.id).Nodup := hl ▸ hwf.1
  have hidsmem : ∀ x, x ∈ ids ↔ x ∈ ((r0 :: rs).filter Cell.live).map Cell.id := by
    intro x
    rw [hfilter]
    cases source.GetDirection <;> simp [orderedIds]
  have hregion_ids : ∀ x ∈ r0 :: rs, x.live = true → x.id ∈ ids := by
    intro x hx hxl
    rw [hidsmem]
    exact List.mem_map_of_mem Cell.id (List.mem_filter.mpr ⟨hx, hxl⟩)
  have hids_region : ∀ x ∈ ids, x ∈ (r0 :: rs).map Cell.id := by
    intro x hx
    obtain ⟨c, hc, rfl⟩ := List.mem_map.mp ((hidsmem x).mp hx)
    exact List.mem_map_of_mem Cell.id (List.mem_filter.mp hc).1
  have hregion_sep : ∀ x ∈ r0 :: rs, x.separator = false := by
    intro x hx
    cases hxl : x.live with
    | false => exact dead_not_separator x hxl
    | true => exact valid_not_separator x (hvalid x hx hxl)
  have ha_dis : ∀ c ∈ a, c.id ∉ ids := by
    intro c hc hcid
    rw [List.map_append, List.map_append, List.append_assoc] at hnodup
    exact (List.nodup_append.mp hnodup).2.2 (List.mem_map_of_mem Cell.id hc)
      (List.mem_append_left _ (hids_region _ hcid))
  have hb_dis : ∀ c ∈ b, c.id ∉ ids := by
    intro c hc hcid
    rw [List.map_append] at hnodup
    exact (List.nodup_append.mp hnodup).2.2
      (by rw [List.map_append]; exact List.mem_append_right _ (hids_region _ hcid))
      (List.mem_map_of_mem Cell.id hc)
  have hr0a : r0.id ∉ a.map Cell.id := by
    have : st.sequence_ = a ++ r0 :: (rs ++ b) := by rw [hl]; simp
    exact nodup_split_left a _ r0 (this ▸ hwf.1)
  have hr0ids : r0.id ∈ ids := hregion_ids r0 (List.mem_cons_self _ _) hr0
  -- the insertion point is the first cell of the region
  have hpoint_eq : point = r0 := by
    have hhead : (orderedIds ids source.GetDirection).head? = some r0.id := by
      rw [← hfilter, List.filter_cons, if_pos hr0]; rfl
    have hip : insertionPoint st.sequence_ source ids = some r0.id := by
      unfold insertionPoint; rw [hhead]
    rw [hip] at hp
    have hr0mem : r0 ∈ st.sequence_ := by rw [hl]; simp
    have := cellOf_of_mem _ r0 hwf.1 hr0mem
    simp only [Option.bind] at hp
    rw [this] at hp
    exact (Option.some.inj hp).symm
  subst hpoint_eq
  -- the buffer after the splice
  have hdead := tombstone_region_dead ids (point :: rs) hregion_ids
  have htomb : tombstone ids st.sequence_ =
      a ++ tombstoneCell point.id :: (tombstone ids rs ++ b) := by
    rw [hl, tombstone_append, tombstone_append, tombstone_of_disjoint ids a ha_dis,
      tombstone_of_disjoint ids b hb_dis, tombstone_cons, if_pos hr0ids]
    simp
  have hregion' : tombstone ids (point :: rs) = tombstoneCell point.id :: tombstone ids rs := by
    rw [tombstone_cons, if_pos hr0ids]
  have hseq' : st'.sequence_ = a ++ fresh ++ tombstone ids (point :: rs) ++ b := by
    rw [hseq, htomb, hregion']
    have := insertBefore_split a (tombstone ids rs ++ b) fresh (tombstoneCell point.id) hr0a
    simp only [tombstoneCell] at this ⊢
    rw [this]
    simp
  -- the landing cell
  have hfrom : cellsFrom st'.sequence_ (regionStart fresh point.id) =
      fresh ++ tombstone ids (point :: rs) ++ b := by
    rw [hseq', hregion']
    cases hf : fresh with
    | nil =>
      have := cellsFrom_split a (tombstone ids rs ++ b) (tombstoneCell point.id) hr0a
      simp only [regionStart, List.head?_nil, List.append_nil, List.nil_append,
        tombstoneCell, List.append_assoc, List.cons_append] at this ⊢
      exact this
    | cons f fs =>
      simp only [regionStart, List.head?_cons]
      have hfa : f.id ∉ a.map Cell.id := by
        intro hmem
        obtain ⟨c, hc, hcid⟩ := List.mem_map.mp hmem
        have h1 := hwf.2.1 c (by rw [hl]; simp [hc])
        have h2 := hfreshids f (by rw [hf]; exact List.mem_cons_self _ _)
        omega
      have := cellsFrom_split a (fs ++ tombstoneCell point.id :: tombstone ids rs ++ b) f hfa
      simp only [List.append_assoc, List.cons_append] at this ⊢
      exact this
  have hcursor : st'.cursorAt h = firstLive (fresh ++ b) := by
    unfold DNASequence.cursorAt
    rw [hcurs, cursorAt_relocate st ids _ h id hcur hsub hin, ← hseq]
    unfold firstLiveFrom
    rw [hfrom]
    exact firstLive_skip_dead fresh _ b hdead
  -- a live cell follows the region: the buffer ends with a separator
  have hblive : ∃ s ∈ b, s.live = true := by
    cases hlast : st.sequence_.getLast? with
    | none => rw [hl] at hlast; simp at hlast
    | some s =>
      have hs := hwf.2.2.2 s hlast
      cases hb : b with
      | nil =>
        rw [hl, hb, List.append_nil,
          List.getLast?_append_of_ne_nil _ (List.cons_ne_nil _ _)] at hlast
        rw [hregion_sep s (List.mem_of_getLast?_eq_some hlast)] at hs
        cases hs
      | cons y ys =>
        rw [hl, hb, List.getLast?_append_of_ne_nil _ (List.cons_ne_nil _ _)] at hlast
        exact ⟨s, List.mem_of_getLast?_eq_some hlast, separator_live s hs⟩
  -- the chromosome of the removed cell
  have hchr_id : chrOf st.sequence_ id = (a.filter Cell.separator).length := by
    obtain ⟨x, hx, hxid⟩ := List.mem_map.mp (hids_region id hin)
    obtain ⟨r1, r2, hreg⟩ := List.append_of_mem hx
    have hl2 : st.sequence_ = (a ++ r1) ++ x :: (r2 ++ b) := by rw [hl, hreg]; simp
    have hr1 : r1.filter Cell.separator = [] := by
      rw [List.filter_eq_nil_iff]
      intro y hy
      have := hregion_sep y (by rw [hreg]; exact List.mem_append_left _ hy)
      simp [this]
    unfold chrOf
    rw [← hxid, hl2, cellsBefore_split _ _ _ (nodup_split_left _ _ x (hl2 ▸ hwf.1)),
      List.filter_append, hr1, List.append_nil]
  -- the landing cell and the part of the new buffer before it
  have hland : ∃ X Y c', st'.sequence_ = X ++ c' :: Y ∧
      (X.filter Cell.separator).length = (a.filter Cell.separator).length ∧
      c'.live = true ∧ firstLive (fresh ++ b) = some c'.id := by
    rw [firstLive_append]
    cases hff : firstLive fresh with
    | some y =>
      obtain ⟨d, c', f2, hfr, hd, hc'live, hc'id⟩ := firstLive_eq_some fresh y hff
      refine ⟨a ++ d, f2 ++ tombstone ids (point :: rs) ++ b, c', ?_, ?_, hc'live, ?_⟩
      · rw [hseq', hfr]; simp
      · rw [List.filter_append, filter_separator_dead d hd, List.append_nil]
      · simp only [hc'id]
    | none =>
      have hfdead := firstLive_eq_none fresh hff
      simp only
      cases hfb : firstLive b with
      | none =>
        exfalso
        obtain ⟨s, hs, hslive⟩ := hblive
        rw [firstLive_eq_none b hfb s hs] at hslive
        cases hslive
      | some y =>
        obtain ⟨d, c', r, hbr, hd, hc'live, hc'id⟩ := firstLive_eq_some b y hfb
        refine ⟨a ++ fresh ++ tombstone ids (point :: rs) ++ d, r, c', ?_, ?_, hc'live, ?_⟩
        · rw [hseq', hbr]; simp
        · rw [List.filter_append, List.filter_append, List.filter_append,
            filter_separator_dead fresh hfdead, filter_separator_dead _ hdead,
            filter_separator_dead d hd]
          simp
        · rw [hc'id]
  obtain ⟨X, Y, c', hl1, hX, hc'live, hc'first⟩ := hland
  refine ⟨?_, a, point :: rs, b, c', hl, hfilter, hseq', hdead, hcursor,
    by rw [hcursor, hc'first], by rw [hl1]; simp, hc'live, ?_⟩
  · intro htne hnodel
    rw [hcursor, ← hfresh]
    unfold freshCells
    cases hst : storedLetters target source.GetDirection with
    | nil => exact absurd hst (storedLetters_ne_nil target _ htne)
    | cons t ts =>
      have ht' : t ≠ Letter.DELETED_CHAR := by
        intro e
        apply storedLetters_no_deleted target source.GetDirection hnodel
        rw [hst, e]
        exact List.mem_cons_self _ _
      simp only [List.map_cons, makeCells, List.cons_append]
      exact firstLive_cons_live _ _ (by simpa [Cell.live] using ht')
  · have hchr' : chrOf st'.sequence_ c'.id = (X.filter Cell.separator).length := by
      unfold chrOf
      rw [hl1, cellsBefore_split _ _ _ (nodup_split_left X Y c' (hl1 ▸ hwf'.1))]
    by_cases hsep : c'.separator = true
    · right
      refine ⟨hsep, ?_⟩
      have hidx := separator_index st'.sequence_ X Y c' hl1 hsep
      rw [← hwf'.2.2.1, hX, ← hchr_id] at hidx
      simp only [DNASequence.PositiveEnd, StrandIterator.ofBase, StrandIterator.Base,
        GenericIterator.Base, hidx, Option.join]
      rfl
    · left
      have hsep' : c'.separator = false := by simpa using hsep
      refine ⟨by simp [Cell.valid, hc'live, hsep'], ?_⟩
      rw [hchr', hX, hchr_id]

/-- The relocation at a concrete edit, scenario S4: in the store of `ACGT` with two
cursors subscribed at `C`, the cells `C` and `G` are replaced by `TT`. The new cells
get the identities 5 and 6, and the cursor under the handle 0, previously at `C`, is
relocated to the first inserted cell, the cell 5; so is the cursor under the handle 1,
and so are both when the same cells are replaced through a negative source. In the
pure delete of scenario S3 the cursor is relocated to `T`, the cell 3. -/
theorem Replace_relocates_witness :
    (WellFormed acgtSubscribed ∧
      sourceRange acgtSubscribed.sequence_ 2
        (StrandIterator.ofBase (some 1) Direction.positive) = some [1, 2] ∧
      (acgtSubscribed.Replace (StrandIterator.ofBase (some 1) Direction.positive) 2
        [Letter.T, Letter.T] true true).accepted = true ∧
      0 ∈ acgtSubscribed.iteratorStore_ ∧ acgtSubscribed.cursorAt 0 = some 1 ∧
      acgtSubscribed.nextId = 5) ∧
    (acgtSubscribed.Replace (StrandIterator.ofBase (some 1) Direction.positive) 2
      [Letter.T, Letter.T] true true).state.cursorAt 0 = some acgtSubscribed.nextId ∧
    (acgtSubscribed.Replace (StrandIterator.ofBase (some 1) Direction.positive) 2
      [Letter.T, Letter.T] true true).state.cursorAt 1 = some 5 ∧
    (acgtSubscribed.Replace (StrandIterator.ofBase (some 1) Direction.positive) 2
      [Letter.T, Letter.T] true true).state.sequence_.map Cell.id = [0, 5, 6, 1, 2, 3, 4] ∧
    (acgtSubscribed.Replace (StrandIterator.ofBase (some 2) Direction.negative) 2
      [Letter.T, Letter.T] true true).state.cursors = [some 5, some 5] ∧
    (acgtSubscribed.Replace (StrandIterator.ofBase (some 2) Direction.negative) 2
      [Letter.T, Letter.T] true true).state.sequence_.map Cell.id = [0, 5, 6, 1, 2, 3, 4] ∧
    (acgtSubscribed.Replace (StrandIterator.ofBase (some 1) Direction.positive) 2 []
      true true).state.cursors = [some 3, some 3] :=
  have hwf : WellFormed acgtSubscribed := ⟨by decide, by decide, by decide, by decide⟩
  ⟨⟨hwf, by decide, by decide, by decide, by decide, by decide⟩,
    (Replace_relocates acgtSubscribed hwf
      (StrandIterator.ofBase (some 1) Direction.positive) 2 [Letter.T, Letter.T] true true
      [1, 2] 0 1 (by decide) (by decide) (by decide) (by decide) (by decide)).2.1
      (by decide) (by decide),
    by decide, by decide, by decide, by decide, by decide⟩

end SyntenyFinder
